import Mathlib

/-!
Verification of the `correlate` package (correlate/__init__.py) against its
natural-language specification.

The development shallowly embeds the package in Lean:

* `Correlate.sortLe` — the stable ascending sort used everywhere the Python
  code calls `list.sort` (CPython sorts are stable).
* `Correlate.boilFuel` / `Correlate.matchBoiler` — `MatchBoiler.__call__`.
* `Correlate.strToKeys` — the `str_to_keys` tokenizer.
* `Correlate.Dataset` and its operations — `Correlator.Dataset`.
* `Correlate.Correlator.correlate` — the four-pass correlation pipeline for
  exact keys.  Fuzzy keys are driven by a user-supplied `compare` oracle
  (an external collaborator per the specification) and are outside the
  embedded fragment; every dataset here carries exact keys only.

Machine integers and floats are modelled by `ℚ` (the package does no
intentional overflow; score arithmetic is embedded exactly).  Python
exceptions are modelled by `Except PyError`.  Python `set` objects are
modelled by duplicate-free lists, since the code only ever tests
membership, inserts, takes sizes, or iterates them in a position where the
result is subsequently sorted.
-/

set_option maxRecDepth 8000

namespace Correlate

universe u

variable {α : Type u} {β : Type u}

/-- Stable insertion used by `sortLe`: places `x` before the first `y` with
`le x y = true`, so that among `le`-equivalent elements the earlier original
element stays first (CPython sort stability). -/
def insertLe (le : α → α → Bool) (x : α) : List α → List α
  | [] => [x]
  | y :: ys => if le x y then x :: y :: ys else y :: insertLe le x ys

/-- Stable ascending sort by the boolean relation `le`; models CPython's
stable `list.sort(key=...)`. -/
def sortLe (le : α → α → Bool) (l : List α) : List α := l.foldr (insertLe le) []

/-- Removal of adjacent duplicates.  On a sorted list this coincides with
Python's global duplicate removal `list(dict.fromkeys(sorted_list))`, which
keeps the first occurrence of each element: in a sorted list all duplicates
are adjacent. -/
def dedupAdj [DecidableEq α] : List α → List α
  | [] => []
  | [x] => [x]
  | x :: y :: t => if x = y then dedupAdj (y :: t) else x :: dedupAdj (y :: t)

/-- Insertion into a Python `set`, modelled as a duplicate-free list. -/
def seenInsert [DecidableEq α] (s : List α) (x : α) : List α :=
  if x ∈ s then s else x :: s

/-! ### The match boiler (`MatchBoiler` in the source)

The boiler consumes its `matches` list from the highest-scored end.  The
Python list is sorted ascending and popped from the tail; the embedding
works on the reversed (descending, head = top) list, which makes the pops
structural.  `matchBoiler` is the entry point and converts between the two
orientations.  The recursion is fuelled; fuel equal to the list length is
always sufficient (each recursive call consumes at least one item). -/

/-- A match candidate: the duck-typed objects consumed by `MatchBoiler`
(`CorrelatorMatch` instances carrying `value_a`, `value_b`, `score`). -/
structure CorrelatorMatch (α : Type u) where
  value_a : α
  value_b : α
  score : ℚ
deriving DecidableEq, Repr

/-- Exchange of the two sides of a match (used to state swap symmetry). -/
def cmSwap (m : CorrelatorMatch α) : CorrelatorMatch α :=
  ⟨m.value_b, m.value_a, m.score⟩

/-- The discard test of `MatchBoiler.__call__`: an item conflicts when its
`value_a` (resp. `value_b`) was already seen and reuse of that side is off. -/
def conflictsSeen [DecidableEq α] (reuse_a reuse_b : Bool) (seen_a seen_b : List α)
    (it : CorrelatorMatch α) : Bool :=
  (!reuse_a && decide (it.value_a ∈ seen_a)) || (!reuse_b && decide (it.value_b ∈ seen_b))

/-- Collection of the further items sharing the top score, in pop order
(`MatchBoiler.__call__`, inner `while matches` loop).  Items conflicting
with the seen sets are popped and discarded.  Returns the kept tied items
and the untouched lower-scored remainder. -/
def collectTies [DecidableEq α] (reuse_a reuse_b : Bool) (seen_a seen_b : List α)
    (top_score : ℚ) :
    List (CorrelatorMatch α) → List (CorrelatorMatch α) × List (CorrelatorMatch α)
  | [] => ([], [])
  | it :: rest =>
    if it.score = top_score then
      let p := collectTies reuse_a reuse_b seen_a seen_b top_score rest
      if conflictsSeen reuse_a reuse_b seen_a seen_b it then p else (it :: p.1, p.2)
    else ([], it :: rest)

/-- The isolation test on a group of equally-scored items: an item is
isolated when its `value_a` and `value_b` each occur exactly once in the
group (the `a[item.value_a] == b[item.value_b] == 1` test). -/
def isolatedIn [DecidableEq α] (items : List (CorrelatorMatch α))
    (it : CorrelatorMatch α) : Bool :=
  (items.countP (fun x => decide (x.value_a = it.value_a)) == 1) &&
  (items.countP (fun x => decide (x.value_b = it.value_b)) == 1)

/-- Outcome of one recursive experiment on a connected tied item. -/
structure ExperimentOutcome (α : Type u) where
  escore : ℚ
  chosen : CorrelatorMatch α
  eresults : List (CorrelatorMatch α)
  eseen_a : List α
  eseen_b : List α
deriving Repr

/-- Addition of the `value_a` sides of a batch of items to a seen set. -/
def seenAddA [DecidableEq α] (s : List α) (ms : List (CorrelatorMatch α)) : List α :=
  ms.foldl (fun s2 it => seenInsert s2 it.value_a) s

/-- Addition of the `value_b` sides of a batch of items to a seen set. -/
def seenAddB [DecidableEq α] (s : List α) (ms : List (CorrelatorMatch α)) : List α :=
  ms.foldl (fun s2 it => seenInsert s2 it.value_b) s

/-- The tied items that are isolated, in original order. -/
def isolatedOf [DecidableEq α] (items : List (CorrelatorMatch α)) :
    List (CorrelatorMatch α) :=
  items.filter (fun it => isolatedIn items it)

/-- The tied items that are connected, in original order. -/
def connectedOf [DecidableEq α] (items : List (CorrelatorMatch α)) :
    List (CorrelatorMatch α) :=
  items.filter (fun it => !(isolatedIn items it))

/-- The matches list handed to the experiment for connected item `i`: the
clone's remaining lower-scored items extended with the other connected
items (which sit above them, hence in front in descending orientation),
then — per reuse flag — purged of the chosen item's `value_a` and
`value_b`. -/
def expInput [DecidableEq α] (reuse_a reuse_b : Bool) (chosen : CorrelatorMatch α)
    (connected lower : List (CorrelatorMatch α)) (i : ℕ) : List (CorrelatorMatch α) :=
  let em0 := (connected.eraseIdx i).reverse ++ lower
  let em1 := if reuse_a then em0
    else em0.filter (fun m => decide (m.value_a ≠ chosen.value_a))
  if reuse_b then em1
  else em1.filter (fun m => decide (m.value_b ≠ chosen.value_b))

/-- Selection of the best experiment: the experiments list is stable-sorted
descending by cumulative score and its first element taken, which is the
first element attaining the maximal score. -/
def chooseFirstMax : List (ExperimentOutcome α) → Option (ExperimentOutcome α)
  | [] => none
  | e :: es =>
    match chooseFirstMax es with
    | none => some e
    | some f => if f.escore > e.escore then some f else some e

/-- `MatchBoiler.__call__` on the reversed (descending) matches list.
Returns `(results, seen_a, seen_b, rest)` where `rest` is the final
content of the (mutated) matches list, still in descending orientation.
The fuel argument only serves termination: fuel `≥` list length always
suffices, and `matchBoiler` instantiates it that way. -/
def boilFuel [DecidableEq α] :
    ℕ → Bool → Bool → List α → List α → List (CorrelatorMatch α) →
    List (CorrelatorMatch α) × List α × List α × List (CorrelatorMatch α)
  | 0, _, _, seen_a, seen_b, ms => ([], seen_a, seen_b, ms)
  | fuel + 1, reuse_a, reuse_b, seen_a, seen_b, ms =>
    if reuse_a && reuse_b then
      -- everything is consumed and kept
      (ms, seenAddA seen_a ms, seenAddB seen_b ms, [])
    else
      match ms with
      | [] => ([], seen_a, seen_b, [])
      | top :: rest =>
        if conflictsSeen reuse_a reuse_b seen_a seen_b top then
          -- already used value_a or value_b: discard and continue the loop
          boilFuel fuel reuse_a reuse_b seen_a seen_b rest
        else
          let p := collectTies reuse_a reuse_b seen_a seen_b top.score rest
          if p.1.isEmpty then
            -- the top item's score was unique: keep it and continue
            let r := boilFuel fuel reuse_a reuse_b
              (seenInsert seen_a top.value_a) (seenInsert seen_b top.value_b) p.2
            (top :: r.1, r.2.1, r.2.2.1, r.2.2.2)
          else
            -- several items share the score; restore original order
            let items := (top :: p.1).reverse
            let isolated := isolatedOf items
            let connected := connectedOf items
            let sa1 := seenAddA seen_a isolated
            let sb1 := seenAddB seen_b isolated
            if connected.isEmpty then
              -- all tied items were isolated: keep them all and continue
              let r := boilFuel fuel reuse_a reuse_b sa1 sb1 p.2
              (isolated ++ r.1, r.2.1, r.2.2.1, r.2.2.2)
            else
              -- run the recursive experiments, enumerated from the last
              -- connected item to the first (the Python loop runs
              -- `range(len(connected_items) - 1, -1, -1)`)
              let experiments := ((List.range connected.length).reverse).map (fun i =>
                let item := connected.getD i top
                let r := boilFuel fuel reuse_a reuse_b
                  (seenInsert sa1 item.value_a) (seenInsert sb1 item.value_b)
                  (expInput reuse_a reuse_b item connected p.2 i)
                ⟨item.score + (r.1.map (fun m => m.score)).sum, item, r.1, r.2.1, r.2.2.1⟩)
              match chooseFirstMax experiments with
              | some e => (isolated ++ e.chosen :: e.eresults, e.eseen_a, e.eseen_b, p.2)
              | none => ([], seen_a, seen_b, p.2)

/-- The experiments list of the connected branch, named for the statements
about `boilFuel`: it equals the list built inline by `boilFuel` at one
lower fuel. -/
def experimentsOf [DecidableEq α] (fuel : ℕ) (reuse_a reuse_b : Bool)
    (sa1 sb1 : List α) (top : CorrelatorMatch α)
    (connected lower : List (CorrelatorMatch α)) : List (ExperimentOutcome α) :=
  ((List.range connected.length).reverse).map (fun i =>
    let item := connected.getD i top
    let r := boilFuel fuel reuse_a reuse_b
      (seenInsert sa1 item.value_a) (seenInsert sb1 item.value_b)
      (expInput reuse_a reuse_b item connected lower i)
    ⟨item.score + (r.1.map (fun m => m.score)).sum, item, r.1, r.2.1, r.2.2.1⟩)

/-- Calling a `MatchBoiler` holding `matches` (ascending by score, as the
caller must supply it) with empty seen sets.  Returns
`(results, seen_a, seen_b, final_matches)`: `results` is highest-first and
`final_matches` is the content of the caller's (mutated) list after the
call, back in the caller's ascending orientation. -/
def matchBoiler [DecidableEq α] (reuse_a reuse_b : Bool)
    (ms : List (CorrelatorMatch α)) :
    List (CorrelatorMatch α) × List α × List α × List (CorrelatorMatch α) :=
  let r := boilFuel ms.length reuse_a reuse_b [] [] ms.reverse
  (r.1, r.2.1, r.2.2.1, r.2.2.2.reverse)

/-- The sortedness check `MatchBoiler._assert_in_ascending_sorted_order`,
embedded exactly as written: `previous_score` starts at negative infinity
(modelled by `none`) and the loop body never updates it. -/
def assertInAscendingSortedOrder (ms : List (CorrelatorMatch α)) : Bool :=
  (ms.foldl
    (fun (st : Bool × Option ℚ) it =>
      (st.1 && (match st.2 with
        | none => true            -- negative infinity is below every score
        | some prev => decide (prev ≤ it.score)),
       st.2))                     -- the source forgets to store it.score here
    (true, none)).1

/-! ### The tokenizer (`str_to_keys` in the source) -/

/-- The configured punctuation string `"?!@#$%^&*:,<>{}[]\\|_-"`. -/
def punctuationChars : List Char :=
  ['?', '!', '@', '#', '$', '%', '^', '&', '*', ':', ',', '<', '>',
   '{', '}', '[', ']', '\\', '|', '_', '-']

/-- ASCII whitespace, the split points of `str.split()` on the strings the
specification restricts the tokenizer claims to. -/
def isSpaceChar (c : Char) : Bool :=
  c == ' ' || c == '\t' || c == '\n' || c == '\r' || c == '\u000b' || c == '\u000c'

/-- ASCII decimal digit (`str.isdigit` on ASCII text). -/
def isDigitChar (c : Char) : Bool := '0' ≤ c && c ≤ '9'

/-- ASCII letter. -/
def isAsciiLetter (c : Char) : Bool := ('a' ≤ c && c ≤ 'z') || ('A' ≤ c && c ≤ 'Z')

/-- Per-character lowering (`str.lower()` on ASCII text). -/
def asciiLower (c : Char) : Char :=
  if 'A' ≤ c && c ≤ 'Z' then Char.ofNat (c.toNat + 32) else c

/-- The `remove_punctuation` translation table: punctuation becomes a space. -/
def translatePunct (c : Char) : Char :=
  if punctuationChars.contains c then ' ' else c

/-- Characters the tokenizer claims are restricted to: ASCII letters,
digits, whitespace, and the configured punctuation. -/
def allowedChar (c : Char) : Bool :=
  isAsciiLetter c || isDigitChar c || isSpaceChar c || punctuationChars.contains c

/-- Accumulating splitter: `wordsAux acc s` processes `s` with the current
(reversed) partial token `acc`. -/
def wordsAux : List Char → List Char → List (List Char)
  | acc, [] => if acc.isEmpty then [] else [acc.reverse]
  | acc, c :: cs =>
    if isSpaceChar c then
      if acc.isEmpty then wordsAux [] cs else acc.reverse :: wordsAux [] cs
    else wordsAux (c :: acc) cs

/-- Python's `s.strip().split()`: the maximal nonempty runs of
non-whitespace characters. -/
def words (s : List Char) : List (List Char) := wordsAux [] s

/-- The helper `_strip_leading_zeroes`: on a nonempty all-digit token,
strip leading zeroes (`str.lstrip("0")`); otherwise unchanged. -/
def stripLeadingZeroes (t : List Char) : List Char :=
  if !t.isEmpty && t.all isDigitChar then t.dropWhile (fun c => c == '0') else t

/-- The tokenizer `str_to_keys`: lowercase, map punctuation to spaces,
split on whitespace, strip leading zeroes from pure-digit tokens. -/
def strToKeys (s : List Char) : List (List Char) :=
  (words ((s.map asciiLower).map translatePunct)).map stripLeadingZeroes

/-! ### Datasets (`Correlator.Dataset` in the source)

Values and exact keys are opaque hashable user objects; the embedding fixes
both to `String` (any finite input is representable up to renaming).
Weights and rankings are numbers, embedded as `ℚ`.  Python dicts are
embedded as insertion-ordered association lists, Python sets as
duplicate-free lists. -/

abbrev Value := String
abbrev Key := String

/-- Python exceptions raised by the embedded fragment.  The specification's
"InvalidArgument" failures surface in the source either as `assert`
failures (`AssertionError`) or as the explicit `RuntimeError` for the
`ranking_factor`/`ranking_bonus` conflict, which `invalidArgument` models;
`typeError` models `TypeError` raised by comparing `None` with a number. -/
inductive PyError where
  | assertionFailure
  | typeError
  | invalidArgument
deriving DecidableEq, Repr

/-- Decidable equality of `Except` values (used to state concrete runs). -/
instance {ε σ : Type} [DecidableEq ε] [DecidableEq σ] : DecidableEq (Except ε σ) := fun x y =>
  match x, y with
  | .ok a, .ok b =>
    if h : a = b then isTrue (congrArg Except.ok h)
    else isFalse (fun hh => h (Except.ok.inj hh))
  | .error e, .error f =>
    if h : e = f then isTrue (congrArg Except.error h)
    else isFalse (fun hh => h (Except.error.inj hh))
  | .ok _, .error _ => isFalse (fun hh => Except.noConfusion hh)
  | .error _, .ok _ => isFalse (fun hh => Except.noConfusion hh)

/-- Lookup in an insertion-ordered association list (Python dict access). -/
def assocFind [DecidableEq β] (l : List (β × α)) (k : β) : Option α :=
  match l with
  | [] => none
  | p :: rest => if p.1 = k then some p.2 else assocFind rest k

/-- Update in an insertion-ordered association list: an existing key keeps
its position, a new key is appended (Python dict update semantics). -/
def assocUpd [DecidableEq β] (l : List (β × α)) (k : β) (v : α) : List (β × α) :=
  match l with
  | [] => [(k, v)]
  | p :: rest => if p.1 = k then (k, v) :: rest else p :: assocUpd rest k v

/-- The dataset store.  `lowest_ranking = none` models the initial
`math.inf` (no ranking recorded yet), `highest_ranking = none` the initial
`-math.inf`. -/
structure Dataset where
  id : String := ""
  default_weight : ℚ := 1
  values : List Value := []
  index_to_key : List (List (Key × List ℚ)) := []
  key_to_index : List (Key × List (List ℕ)) := []
  rankings : List (Option ℚ) := []
  lowest_ranking : Option ℚ := none
  highest_ranking : Option ℚ := none
  rankings_count : ℕ := 0
  max_round : ℕ := 0
deriving DecidableEq, Repr

/-- `Dataset._value_index`: the index of a value, appending it (and an
empty key table) when new. -/
def Dataset.valueIndex (d : Dataset) (v : Value) : Dataset × ℕ :=
  match d.values.findIdx? (fun x => x == v) with
  | some i => (d, i)
  | none =>
    ({ d with values := d.values ++ [v], index_to_key := d.index_to_key ++ [[]] },
     d.values.length)

/-- `Dataset.set`: append a mapping (key, value, weight), re-sorting the
(key, value) weight list non-ascending and registering the value index
under the key at the newly occupied round. -/
def Dataset.set (d : Dataset) (key : Key) (v : Value) (weight : Option ℚ := none) : Dataset :=
  let w := weight.getD d.default_weight
  let pr := d.valueIndex v
  let d1 := pr.1
  let index := pr.2
  let keymap := d1.index_to_key.getD index []
  let weights := (assocFind keymap key).getD []
  let round := weights.length
  let weights2 := sortLe (fun x y : ℚ => decide (y ≤ x)) (weights ++ [w])
  let keymap2 := assocUpd keymap key weights2
  let itk := d1.index_to_key.set index keymap2
  let rounds := (assocFind d1.key_to_index key).getD []
  -- the source asserts `len(index_rounds) >= round` here; datasets built
  -- through the API always satisfy it
  let rounds2 := if rounds.length = round then rounds ++ [[]] else rounds
  let rounds3 := rounds2.set round (seenInsert (rounds2.getD round []) index)
  let kti := assocUpd d1.key_to_index key rounds3
  { d1 with
    index_to_key := itk
    key_to_index := kti
    max_round := max d1.max_round (round + 1) }

/-- `Dataset.set_keys`: `set` over an iterable of keys. -/
def Dataset.setKeys (d : Dataset) (keys : List Key) (v : Value)
    (weight : Option ℚ := none) : Dataset :=
  keys.foldl (fun dd k => dd.set k v weight) d

/-- `Dataset.value`: record a ranking for a value.  The `isinstance`
assertion always passes in the embedding (rankings are typed `Option ℚ`).
After storing the ranking the source evaluates
`min(self._lowest_ranking, ranking)`; when `ranking` is `None` — its
default — Python 3 raises `TypeError` on that comparison. -/
def Dataset.value (d : Dataset) (v : Value) (ranking : Option ℚ := none) :
    Except PyError Dataset :=
  let pr := d.valueIndex v
  let d1 := pr.1
  let index := pr.2
  let padded := d1.rankings ++ List.replicate (index + 1 - d1.rankings.length) none
  let rk := padded.set index ranking
  match ranking with
  | none => .error .typeError
  | some r =>
    let newLow := match d1.lowest_ranking with
      | none => r
      | some c => min c r
    let newHigh := match d1.highest_ranking with
      | none => r
      | some c => max c r
    .ok { d1 with
      rankings := rk
      lowest_ranking := some newLow
      highest_ranking := some newHigh
      rankings_count := d1.rankings_count + 1 }

/-- `Correlator._validate`, per dataset: table lengths agree, values are
pairwise distinct, weight lists are non-ascending, key-table indices are in
range, and every value owns at least one key.  The source's later-round
subset assertion is omitted because it is inoperative as written (its
`previous_round` variable is never updated inside the loop). -/
def Dataset.validate (d : Dataset) : Bool :=
  (d.values.length == d.index_to_key.length) &&
  decide d.values.Nodup &&
  d.index_to_key.all (fun keymap => keymap.all (fun p =>
    decide (sortLe (fun x y : ℚ => decide (y ≤ x)) p.2 = p.2))) &&
  d.key_to_index.all (fun p => p.2.all (fun round => round.all
    (fun i => decide (i < d.values.length)))) &&
  (List.range d.values.length).all (fun i =>
    d.key_to_index.any (fun p => p.2.any (fun round => round.contains i)))

/-- Well-formedness of the per-value key tables: each value's key map
holds every key at most once.  Datasets built through `Dataset.set` always
satisfy this (`assocUpd` keeps association-list keys unique); it is stated
separately because `_validate` does not re-check it. -/
def Dataset.keymapsNodup (d : Dataset) : Bool :=
  d.index_to_key.all (fun keymap => decide ((keymap.map (fun p => p.1)).Nodup))

/-! ### The streamlined data and the correlate pipeline (exact keys) -/

/-- The per-call read-optimized data
(`Dataset._precompute_streamlined_data`, exact-key part): per value index,
the rounds with their key → (weight, other-side count) tables; the union of
exact keys; and the per-value total key-use count. -/
structure Streamlined where
  all_exact_keys : List Key
  exact_rounds : List (List (List (Key × ℚ × ℕ)))
  total_keys : List ℕ
deriving Repr

/-- Occurrence count of a key at a round on the opposite dataset
(`len(other._key_to_index[key][round])`, `0` when absent). -/
def countOther (other : Dataset) (key : Key) (round : ℕ) : ℕ :=
  match assocFind other.key_to_index key with
  | none => 0
  | some rounds => (rounds.getD round []).length

/-- The exact rounds of one value: round `r` maps each key having more
than `r` weights to its `r`-th weight and other-side count. -/
def exactRoundsFor (other : Dataset) (keymap : List (Key × List ℚ)) :
    List (List (Key × ℚ × ℕ)) :=
  (List.range (keymap.foldl (fun m p => max m p.2.length) 0)).map (fun r =>
    keymap.filterMap (fun p =>
      match p.2[r]? with
      | some w => some (p.1, w, countOther other p.1 r)
      | none => none))

/-- `Dataset._precompute_streamlined_data` (exact-key part; the
`key_reuse_penalty_factor` argument only feeds the fuzzy tables). -/
def Dataset.precompute (d other : Dataset) : Streamlined :=
  { all_exact_keys := d.index_to_key.foldl (fun acc keymap =>
      keymap.foldl (fun ac p => seenInsert ac p.1) acc) [],
    exact_rounds := d.index_to_key.map (fun keymap => exactRoundsFor other keymap),
    total_keys := d.index_to_key.map (fun keymap =>
      keymap.foldl (fun t p => t + p.2.length) 0) }

/-- Lexicographic order on index pairs (Python tuple comparison). -/
def pairLeB (p q : ℕ × ℕ) : Bool :=
  decide (p.1 < q.1) || (p.1 == q.1 && decide (p.2 ≤ q.2))

/-- The round-0 value indices of a key. -/
def roundZeroIdx (d : Dataset) (k : Key) : List ℕ :=
  ((assocFind d.key_to_index k).getD []).getD 0 []

/-- The candidate pair list `all_indexes`: cross products of round-0 owners
of each shared exact key, sorted lexicographically with duplicates
removed. -/
def allIndexesFor (a b : Dataset) (strA strB : Streamlined) : List (ℕ × ℕ) :=
  let pairs := (strA.all_exact_keys.filter
      (fun k => strB.all_exact_keys.contains k)).flatMap
    (fun k => (roundZeroIdx a k).flatMap
      (fun ia => (roundZeroIdx b k).map (fun ib => (ia, ib))))
  dedupAdj (sortLe pairLeB pairs)

/-- One common key's contribution in a round:
`weight_a * weight_b * round_factor / (count_a * count_b)`, skipped when
zero (the body of the per-key loop of the first pass). -/
def keyScore (roundFactor : ℚ) (ra rb : List (Key × ℚ × ℕ)) (k : Key) : Option ℚ :=
  match assocFind ra k, assocFind rb k with
  | some wa, some wb =>
    let s := wa.1 * wb.1 * roundFactor / ((wa.2 : ℚ) * (wb.2 : ℚ))
    if s = 0 then none else some s
  | _, _ => none

/-- The first-pass round loop for one candidate pair: zip the exact rounds,
break on an empty key intersection, score each common key with `keyScore`,
count `2 * |intersection|` toward the possible-score total, and break when
a round contributes no nonzero score.  Returns the collected scores and
the cumulative possible score. -/
def exactPairLoop (krpf : ℚ) :
    ℕ → List (List (Key × ℚ × ℕ)) → List (List (Key × ℚ × ℕ)) → List ℚ × ℕ
  | i, ra :: ras, rb :: rbs =>
    let interKeys := sortLe (fun x y : Key => decide (x ≤ y))
      ((ra.map (fun p => p.1)).filter (fun k => (rb.map (fun p => p.1)).contains k))
    if interKeys.isEmpty then ([], 0)
    else
      let roundFactor := krpf ^ (i * 2)
      let cumAdd := interKeys.length * 2
      let roundScores := interKeys.filterMap (keyScore roundFactor ra rb)
      if roundScores.isEmpty then ([], cumAdd)
      else
        let rest := exactPairLoop krpf (i + 1) ras rbs
        (roundScores ++ rest.1, cumAdd + rest.2)
  | _, _, _ => ([], 0)

/-- `CorrelatorRankingApproach`. -/
inductive RankingApproach where
  | InvalidRanking
  | BestRanking
  | AbsoluteRanking
  | RelativeRanking
deriving DecidableEq, Repr

/-- The keyword arguments of `Correlator.correlate` with their defaults. -/
structure CorrelateArgs where
  minimum_score : ℚ := 0
  score_ratio_bonus : ℚ := 1
  ranking : RankingApproach := RankingApproach.BestRanking
  ranking_bonus : ℚ := 0
  ranking_factor : ℚ := 0
  key_reuse_penalty_factor : ℚ := 1
  reuse_a : Bool := false
  reuse_b : Bool := false
deriving DecidableEq, Repr

/-- The ranking range `highest - lowest`.  Unreachable fallback `0` when no
ranking was recorded (the source would compute with infinities there; the
range is only consulted when both datasets hold more than one ranking). -/
def Dataset.rankingRange (d : Dataset) : ℚ :=
  match d.highest_ranking, d.lowest_ranking with
  | some h, some l => h - l
  | _, _ => 0

/-- `Dataset._ranking`: the recorded ranking of an index, `none` when
absent or out of range. -/
def Dataset.rankingOf (d : Dataset) (i : ℕ) : Option ℚ :=
  d.rankings.getD i none

/-- `Correlator`: the engine owning the two datasets. -/
structure Correlator where
  dataset_a : Dataset
  dataset_b : Dataset
deriving DecidableEq, Repr

/-- One fourth-pass channel after boiling and truncation. -/
structure ChannelOutcome where
  boiled : List (CorrelatorMatch ℕ)
  seen_a : List ℕ
  seen_b : List ℕ
  cumulative : ℚ
  kept : List (CorrelatorMatch ℕ)
deriving DecidableEq, Repr

/-- The result object (`CorrelatorResult`).  The source names the first
field `matches`, a reserved word in Lean, hence `matchList`. -/
structure CorrelatorResult where
  matchList : List (CorrelatorMatch Value)
  unmatched_a : List Value
  unmatched_b : List Value
  minimum_score : ℚ
deriving DecidableEq, Repr

/-- The fourth-pass walk: accumulate scores from the highest-first boiled
list, stopping at the first item whose score is at or below the minimum;
that item's score still enters the cumulative total, and the kept matches
are the items strictly before it. -/
def truncAtMin (minScore : ℚ) : List (CorrelatorMatch ℕ) → ℚ × List (CorrelatorMatch ℕ)
  | [] => (0, [])
  | it :: rest =>
    if it.score ≤ minScore then (it.score, [])
    else
      let r := truncAtMin minScore rest
      (it.score + r.1, it :: r.2)

/-- Selection of the final channel: the channel outcomes are stable-sorted
ascending by cumulative score and the last taken, i.e. the latest channel
attaining the maximal cumulative score. -/
def pickLastMax : List ChannelOutcome → Option ChannelOutcome
  | [] => none
  | c :: cs =>
    match pickLastMax cs with
    | none => some c
    | some d => if d.cumulative ≥ c.cumulative then some d else some c

/-- Intermediate data of one `correlate` call, exposed for the statements
about its internal passes: the fourth-pass channel inputs, the surviving
channel outcomes, the chosen outcome, and the final result object. -/
structure CorrelateDetail where
  channels : List (List (CorrelatorMatch ℕ))
  outcomes : List ChannelOutcome
  chosen : Option ChannelOutcome
  result : CorrelatorResult
deriving Repr

/-- Passes one to three of the pipeline on the candidate pairs: for every
candidate pair, the exact score (summed after an ascending sort) plus —
when `score_ratio_bonus` is nonzero — the hit-ratio bonus
`score_ratio_bonus * cumulative / (total_keys_a + total_keys_b)`. -/
def scoredPairs (c : Correlator) (args : CorrelateArgs) : List ((ℕ × ℕ) × ℚ) :=
  let strA := c.dataset_a.precompute c.dataset_b
  let strB := c.dataset_b.precompute c.dataset_a
  let allIndexes := allIndexesFor c.dataset_a c.dataset_b strA strB
  let third := allIndexes.map (fun p =>
    let e := exactPairLoop args.key_reuse_penalty_factor 0
      (strA.exact_rounds.getD p.1 []) (strB.exact_rounds.getD p.2 [])
    (p, (sortLe (fun x y : ℚ => decide (x ≤ y)) e.1).sum, e.2))
  third.map (fun t =>
    let score := if args.score_ratio_bonus ≠ 0 then
        t.2.1 + args.score_ratio_bonus * (t.2.2 : ℚ) /
          ((strA.total_keys.getD t.1.1 0 : ℚ) + (strB.total_keys.getD t.1.2 0 : ℚ))
      else t.2.1
    (t.1, score))

/-- `using_rankings`: a ranking adjustment is configured and both datasets
rank more than one value. -/
def usingRankings (c : Correlator) (args : CorrelateArgs) : Bool :=
  (decide (args.ranking_factor ≠ 0) || decide (args.ranking_bonus ≠ 0)) &&
  decide (1 < c.dataset_a.rankings_count) && decide (1 < c.dataset_b.rankings_count)

/-- The third-pass ranking modulation of one pair's score, for the
absolute (`isAbs = true`) or relative channel. -/
def adjustScore (c : Correlator) (args : CorrelateArgs) (isAbs : Bool)
    (t : (ℕ × ℕ) × ℚ) : ℚ :=
  let range_a := c.dataset_a.rankingRange
  let range_b := c.dataset_b.rankingRange
  let widest := max range_a range_b
  let omrf := 1 - args.ranking_factor
  match c.dataset_a.rankingOf t.1.1, c.dataset_b.rankingOf t.1.2 with
  | some ra, some rb =>
    let rdf := 1 - |ra / range_a - rb / range_b|
    let adf := 1 - |ra - rb| / widest
    let f := if isAbs then adf else rdf
    if args.ranking_factor ≠ 0 then t.2 * (omrf + args.ranking_factor * f)
    else if args.ranking_bonus ≠ 0 then t.2 + args.ranking_bonus * f
    else t.2
  | _, _ =>
    if args.ranking_factor ≠ 0 then t.2 * omrf else t.2

/-- The fourth-pass channels in creation order: absolute and/or relative
when rankings are in use (per the requested approach), else the single
unified channel. -/
def channelsOf (c : Correlator) (args : CorrelateArgs) :
    List (List (CorrelatorMatch ℕ)) :=
  let scored := scoredPairs c args
  if usingRankings c args then
    (if args.ranking = RankingApproach.AbsoluteRanking ∨
        args.ranking = RankingApproach.BestRanking then
      [scored.map (fun t => (⟨t.1.1, t.1.2, adjustScore c args true t⟩ : CorrelatorMatch ℕ))]
    else []) ++
    (if args.ranking = RankingApproach.RelativeRanking ∨
        args.ranking = RankingApproach.BestRanking then
      [scored.map (fun t => (⟨t.1.1, t.1.2, adjustScore c args false t⟩ : CorrelatorMatch ℕ))]
    else [])
  else [scored.map (fun t => (⟨t.1.1, t.1.2, t.2⟩ : CorrelatorMatch ℕ))]

/-- The fourth pass on one channel: stable-sort ascending by score, boil,
walk and truncate at the minimum score; the channel survives only when
some match is kept. -/
def channelOutcome (args : CorrelateArgs) (ms : List (CorrelatorMatch ℕ)) :
    Option ChannelOutcome :=
  let sorted := sortLe (fun x y : CorrelatorMatch ℕ => decide (x.score ≤ y.score)) ms
  let r := matchBoiler args.reuse_a args.reuse_b sorted
  let t := truncAtMin args.minimum_score r.1
  if t.2.isEmpty then none
  else some ⟨r.1, r.2.1, r.2.2.1, t.1, t.2⟩

/-- The surviving channel outcomes, in channel order. -/
def outcomesOf (c : Correlator) (args : CorrelateArgs) : List ChannelOutcome :=
  (channelsOf c args).filterMap (channelOutcome args)

/-- The selected outcome: the highest cumulative score, later channels
winning ties. -/
def chosenOf (c : Correlator) (args : CorrelateArgs) : Option ChannelOutcome :=
  pickLastMax (outcomesOf c args)

/-- The unmatched residue of one dataset: its values whose index is not in
the chosen seen set. -/
def unmatchedOf (values : List Value) (seen : List ℕ) : List Value :=
  (values.enum.filter (fun q => !(seen.contains q.1))).map (fun q => q.2)

/-- The final result object: empty with everything unmatched when no
channel survived, else the chosen outcome's kept matches mapped back to
user values together with both unmatched residues. -/
def resultOf (c : Correlator) (args : CorrelateArgs) : CorrelatorResult :=
  match chosenOf c args with
  | none => ⟨[], c.dataset_a.values, c.dataset_b.values, args.minimum_score⟩
  | some o =>
    ⟨o.kept.map (fun m =>
        (⟨c.dataset_a.values.getD m.value_a "", c.dataset_b.values.getD m.value_b "",
          m.score⟩ : CorrelatorMatch Value)),
     unmatchedOf c.dataset_a.values o.seen_a,
     unmatchedOf c.dataset_b.values o.seen_b,
     args.minimum_score⟩

/-- `Correlator.correlate`, instrumented to also return its intermediate
data.  Follows the source: validate, check `minimum_score >= 0`, reject
the `ranking_factor`/`ranking_bonus` combination, then run the scoring
passes, boil and truncate each channel, pick the highest-cumulative
channel, and map indices back to values. -/
def Correlator.correlateDetailed (c : Correlator) (args : CorrelateArgs) :
    Except PyError CorrelateDetail :=
  if !(c.dataset_a.validate && c.dataset_b.validate) then .error .assertionFailure
  else if !(decide ((0:ℚ) ≤ args.minimum_score)) then .error .assertionFailure
  else if decide (args.ranking_factor ≠ 0) && decide (args.ranking_bonus ≠ 0) then
    .error .invalidArgument
  else .ok ⟨channelsOf c args, outcomesOf c args, chosenOf c args, resultOf c args⟩

/-- `Correlator.correlate`: the public entry point. -/
def Correlator.correlate (c : Correlator) (args : CorrelateArgs) :
    Except PyError CorrelatorResult :=
  (c.correlateDetailed args).map (fun d => d.result)

/-- The argument record of the swapped run: `reuse_a` and `reuse_b`
exchanged, everything else unchanged. -/
def swapReuse (args : CorrelateArgs) : CorrelateArgs :=
  { args with reuse_a := args.reuse_b, reuse_b := args.reuse_a }

/-- The A↔B mirror of a channel outcome: matches swapped, seen sets
exchanged (used to state the swap-symmetry claim). -/
def outcomeSwap (o : ChannelOutcome) : ChannelOutcome :=
  ⟨o.boiled.map cmSwap, o.seen_b, o.seen_a, o.cumulative, o.kept.map cmSwap⟩

/-- The A↔B mirror of a result object: matches swapped, unmatched lists
exchanged (used to state the swap-symmetry claim). -/
def resultSwap (r : CorrelatorResult) : CorrelatorResult :=
  ⟨r.matchList.map cmSwap, r.unmatched_b, r.unmatched_a, r.minimum_score⟩

/-! ### Concrete inputs used by the claim-level evaluations -/

/-- A fresh dataset (`Correlator.Dataset()` with the default weight). -/
def emptyDataset : Dataset := {}

/-- The single-exact-match scenario of C1: dataset A holds
`set("x", "alpha")`, dataset B holds `set("x", "beta")`. -/
def c1Correlator : Correlator :=
  ⟨emptyDataset.set "x" "alpha", emptyDataset.set "x" "beta"⟩

/-- The truncation scenario for C3: the pair (a1, b1) scores 2 and the pair
(a2, b2) scores 3/2 (weight 1/2 on a2's key); with `minimum_score = 7/4`
the second match is truncated after the boiler computed the seen sets. -/
def c3Correlator : Correlator :=
  ⟨(emptyDataset.set "x" "a1").set "y" "a2" (some (1/2)),
   (emptyDataset.set "x" "b1").set "y" "b2"⟩

/-- Dataset A of the six-cycle scenario for C8: value `ai` owns the two
keys `kij` (j ≠ i), each shared with exactly one B value. -/
def c8DatasetA : Dataset :=
  ((((((emptyDataset.set "k01" "a0").set "k02" "a0").set "k10" "a1").set
    "k12" "a1").set "k20" "a2").set "k21" "a2")

/-- Dataset B of the six-cycle scenario for C8: value `bj` owns the two
keys `kij` (i ≠ j). -/
def c8DatasetB : Dataset :=
  ((((((emptyDataset.set "k10" "b0").set "k20" "b0").set "k01" "b1").set
    "k21" "b1").set "k02" "b2").set "k12" "b2")

/-! ## Theorems

Helper lemmas about the list utilities and the boiler come first, then one
theorem per specification claim. -/

theorem insertLe_perm (le : α → α → Bool) (x : α) (l : List α) :
    (insertLe le x l).Perm (x :: l) := by
  induction l with
  | nil => simp [insertLe]
  | cons y ys ih =>
    by_cases h : le x y
    · simp [insertLe, h]
    · simp only [insertLe, h, Bool.false_eq_true, if_false]
      exact ((ih.cons y).trans (List.Perm.swap x y ys))

theorem sortLe_perm (le : α → α → Bool) (l : List α) : (sortLe le l).Perm l := by
  induction l with
  | nil => simp [sortLe]
  | cons x xs ih =>
    have h1 : sortLe le (x :: xs) = insertLe le x (sortLe le xs) := rfl
    rw [h1]
    exact (insertLe_perm le x (sortLe le xs)).trans (ih.cons x)

theorem mem_sortLe (le : α → α → Bool) (l : List α) (x : α) :
    x ∈ sortLe le l ↔ x ∈ l := (sortLe_perm le l).mem_iff

theorem length_sortLe (le : α → α → Bool) (l : List α) :
    (sortLe le l).length = l.length := (sortLe_perm le l).length_eq

theorem mem_seenInsert [DecidableEq α] (s : List α) (x y : α) :
    y ∈ seenInsert s x ↔ y = x ∨ y ∈ s := by
  unfold seenInsert
  by_cases h : x ∈ s
  · simp only [if_pos h]
    constructor
    · exact fun hy => Or.inr hy
    · rintro (rfl | hy)
      · exact h
      · exact hy
  · simp [if_neg h]

theorem mem_seenAddA [DecidableEq α] (s : List α) (ms : List (CorrelatorMatch α))
    (v : α) : v ∈ seenAddA s ms ↔ v ∈ s ∨ ∃ x ∈ ms, x.value_a = v := by
  induction ms generalizing s with
  | nil => simp [seenAddA]
  | cons m rest ih =>
    have h : seenAddA s (m :: rest) = seenAddA (seenInsert s m.value_a) rest := rfl
    rw [h, ih, mem_seenInsert]
    simp only [List.mem_cons]
    constructor
    · rintro ((rfl | hs) | ⟨x, hx, rfl⟩)
      · exact Or.inr ⟨m, Or.inl rfl, rfl⟩
      · exact Or.inl hs
      · exact Or.inr ⟨x, Or.inr hx, rfl⟩
    · rintro (hs | ⟨x, (rfl | hx), rfl⟩)
      · exact Or.inl (Or.inr hs)
      · exact Or.inl (Or.inl rfl)
      · exact Or.inr ⟨x, hx, rfl⟩

theorem mem_seenAddB [DecidableEq α] (s : List α) (ms : List (CorrelatorMatch α))
    (v : α) : v ∈ seenAddB s ms ↔ v ∈ s ∨ ∃ x ∈ ms, x.value_b = v := by
  induction ms generalizing s with
  | nil => simp [seenAddB]
  | cons m rest ih =>
    have h : seenAddB s (m :: rest) = seenAddB (seenInsert s m.value_b) rest := rfl
    rw [h, ih, mem_seenInsert]
    simp only [List.mem_cons]
    constructor
    · rintro ((rfl | hs) | ⟨x, hx, rfl⟩)
      · exact Or.inr ⟨m, Or.inl rfl, rfl⟩
      · exact Or.inl hs
      · exact Or.inr ⟨x, Or.inr hx, rfl⟩
    · rintro (hs | ⟨x, (rfl | hx), rfl⟩)
      · exact Or.inl (Or.inr hs)
      · exact Or.inl (Or.inl rfl)
      · exact Or.inr ⟨x, hx, rfl⟩

theorem collectTies_len [DecidableEq α] (ra rb : Bool) (sa sb : List α) (ts : ℚ)
    (ms : List (CorrelatorMatch α)) :
    (collectTies ra rb sa sb ts ms).1.length +
      (collectTies ra rb sa sb ts ms).2.length ≤ ms.length := by
  induction ms with
  | nil => simp [collectTies]
  | cons it rest ih =>
    by_cases h : it.score = ts
    · by_cases hc : conflictsSeen ra rb sa sb it = true
      · simp only [collectTies, if_pos h, hc, if_true]
        exact ih.trans (Nat.le_succ _)
      · simp only [collectTies, if_pos h, hc, Bool.false_eq_true, if_false,
          List.length_cons]
        omega
    · simp [collectTies, h]

theorem collectTies_suffix [DecidableEq α] (ra rb : Bool) (sa sb : List α) (ts : ℚ)
    (ms : List (CorrelatorMatch α)) :
    (collectTies ra rb sa sb ts ms).2 <:+ ms := by
  induction ms with
  | nil => simp [collectTies]
  | cons it rest ih =>
    by_cases h : it.score = ts
    · by_cases hc : conflictsSeen ra rb sa sb it = true
      · simp only [collectTies, if_pos h, hc, if_true]
        exact ih.trans (List.suffix_cons it rest)
      · simp only [collectTies, if_pos h, hc, Bool.false_eq_true, if_false]
        exact ih.trans (List.suffix_cons it rest)
    · simp [collectTies, h]

theorem collectTies_tie_mem [DecidableEq α] (ra rb : Bool) (sa sb : List α) (ts : ℚ)
    (ms : List (CorrelatorMatch α)) :
    ∀ x ∈ (collectTies ra rb sa sb ts ms).1,
      conflictsSeen ra rb sa sb x = false ∧ x.score = ts := by
  induction ms with
  | nil => simp [collectTies]
  | cons it rest ih =>
    by_cases h : it.score = ts
    · by_cases hc : conflictsSeen ra rb sa sb it = true
      · simp only [collectTies, if_pos h, hc, if_true]
        exact ih
      · simp only [collectTies, if_pos h, hc, Bool.false_eq_true, if_false]
        intro x hx
        rcases List.mem_cons.mp hx with rfl | hx2
        · exact ⟨Bool.not_eq_true _ ▸ hc, h⟩
        · exact ih x hx2
    · simp [collectTies, h]

theorem chooseFirstMax_mem {l : List (ExperimentOutcome α)} {e : ExperimentOutcome α}
    (h : chooseFirstMax l = some e) : e ∈ l := by
  induction l with
  | nil => simp [chooseFirstMax] at h
  | cons x xs ih =>
    simp only [chooseFirstMax] at h
    cases hx : chooseFirstMax xs with
    | none =>
      rw [hx] at h
      simp only [Option.some.injEq] at h
      exact h ▸ List.mem_cons_self x xs
    | some f =>
      rw [hx] at h
      have h2 : (if f.escore > x.escore then some f else some x) = some e := h
      by_cases hgt : f.escore > x.escore
      · rw [if_pos hgt] at h2
        simp only [Option.some.injEq] at h2
        exact List.mem_cons_of_mem x (ih (h2 ▸ hx))
      · rw [if_neg hgt] at h2
        simp only [Option.some.injEq] at h2
        exact h2 ▸ List.mem_cons_self x xs

theorem chooseFirstMax_eq_none {l : List (ExperimentOutcome α)} :
    chooseFirstMax l = none ↔ l = [] := by
  cases l with
  | nil => simp [chooseFirstMax]
  | cons x xs =>
    simp only [chooseFirstMax]
    cases hx : chooseFirstMax xs with
    | none => simp
    | some f =>
      by_cases hgt : f.escore > x.escore
      · simp [if_pos hgt]
      · simp [if_neg hgt]

theorem expInput_len [DecidableEq α] (ra rb : Bool) (ch : CorrelatorMatch α)
    (conn lower : List (CorrelatorMatch α)) (i : ℕ) (hi : i < conn.length) :
    (expInput ra rb ch conn lower i).length ≤ (conn.length - 1) + lower.length := by
  unfold expInput
  have base : ((conn.eraseIdx i).reverse ++ lower).length =
      (conn.length - 1) + lower.length := by
    simp [List.length_eraseIdx, hi]
  have h1 : (if ra then (conn.eraseIdx i).reverse ++ lower
      else ((conn.eraseIdx i).reverse ++ lower).filter
        (fun m => decide (m.value_a ≠ ch.value_a))).length ≤
      (conn.length - 1) + lower.length := by
    by_cases hra : ra
    · simp only [if_pos hra]; omega
    · simp only [if_neg hra]
      exact le_of_le_of_eq (List.length_filter_le _ _) base
  by_cases hrb : rb
  · simp only [if_pos hrb]; exact h1
  · simp only [if_neg hrb]
    exact le_trans (List.length_filter_le _ _) h1

theorem two_le_length_of_two_mem {l : List β} {x y : β} (hx : x ∈ l) (hy : y ∈ l)
    (hxy : x ≠ y) : 2 ≤ l.length := by
  induction l with
  | nil => simp at hx
  | cons z t ih =>
    rcases List.mem_cons.mp hx with rfl | hx2
    · rcases List.mem_cons.mp hy with rfl | hy2
      · exact absurd rfl hxy
      · have h1 : 0 < t.length := List.length_pos.mpr (List.ne_nil_of_mem hy2)
        simp only [List.length_cons]
        omega
    · have h1 : 0 < t.length := List.length_pos.mpr (List.ne_nil_of_mem hx2)
      simp only [List.length_cons]
      omega

theorem two_le_countP_of_two_mem {l : List β} {x y : β} (p : β → Bool) (hx : x ∈ l)
    (hy : y ∈ l) (hxy : x ≠ y) (hpx : p x = true) (hpy : p y = true) :
    2 ≤ l.countP p := by
  have hxf : x ∈ l.filter p := List.mem_filter.mpr ⟨hx, hpx⟩
  have hyf : y ∈ l.filter p := List.mem_filter.mpr ⟨hy, hpy⟩
  calc 2 ≤ (l.filter p).length := two_le_length_of_two_mem hxf hyf hxy
    _ = l.countP p := (List.countP_eq_length_filter p l).symm

/-! ### Branch equations of the boiler -/

theorem boilFuel_zero [DecidableEq α] (ra rb : Bool) (sa sb : List α)
    (ms : List (CorrelatorMatch α)) :
    boilFuel 0 ra rb sa sb ms = ([], sa, sb, ms) := rfl

theorem boilFuel_reuse [DecidableEq α] (f : ℕ) (sa sb : List α)
    (ms : List (CorrelatorMatch α)) :
    boilFuel (f + 1) true true sa sb ms = (ms, seenAddA sa ms, seenAddB sb ms, []) := rfl

theorem boilFuel_nil [DecidableEq α] (f : ℕ) (ra rb : Bool) (sa sb : List α)
    (h : (ra && rb) = false) :
    boilFuel (f + 1) ra rb sa sb [] = ([], sa, sb, []) := by
  simp [boilFuel, h]

theorem boilFuel_conflict [DecidableEq α] (f : ℕ) (ra rb : Bool) (sa sb : List α)
    (top : CorrelatorMatch α) (rest : List (CorrelatorMatch α))
    (h : (ra && rb) = false) (hc : conflictsSeen ra rb sa sb top = true) :
    boilFuel (f + 1) ra rb sa sb (top :: rest) = boilFuel f ra rb sa sb rest := by
  simp [boilFuel, h, hc]

theorem boilFuel_single [DecidableEq α] (f : ℕ) (ra rb : Bool) (sa sb : List α)
    (top : CorrelatorMatch α) (rest lower : List (CorrelatorMatch α))
    (h : (ra && rb) = false) (hc : conflictsSeen ra rb sa sb top = false)
    (hp : collectTies ra rb sa sb top.score rest = ([], lower)) :
    boilFuel (f + 1) ra rb sa sb (top :: rest) =
      ((top :: (boilFuel f ra rb (seenInsert sa top.value_a)
          (seenInsert sb top.value_b) lower).1),
       (boilFuel f ra rb (seenInsert sa top.value_a)
          (seenInsert sb top.value_b) lower).2) := by
  simp [boilFuel, h, hc, hp]

theorem boilFuel_isolated [DecidableEq α] (f : ℕ) (ra rb : Bool) (sa sb : List α)
    (top : CorrelatorMatch α) (rest tie lower : List (CorrelatorMatch α))
    (h : (ra && rb) = false) (hc : conflictsSeen ra rb sa sb top = false)
    (hp : collectTies ra rb sa sb top.score rest = (tie, lower)) (htie : tie ≠ [])
    (hcn : connectedOf ((top :: tie).reverse) = []) :
    boilFuel (f + 1) ra rb sa sb (top :: rest) =
      ((isolatedOf ((top :: tie).reverse) ++
          (boilFuel f ra rb (seenAddA sa (isolatedOf ((top :: tie).reverse)))
            (seenAddB sb (isolatedOf ((top :: tie).reverse))) lower).1),
       (boilFuel f ra rb (seenAddA sa (isolatedOf ((top :: tie).reverse)))
          (seenAddB sb (isolatedOf ((top :: tie).reverse))) lower).2) := by
  have hcn2 : connectedOf (tie.reverse ++ [top]) = [] := by
    simpa [List.reverse_cons] using hcn
  simp [boilFuel, h, hc, hp, htie, hcn2]

theorem boilFuel_connected [DecidableEq α] (f : ℕ) (ra rb : Bool) (sa sb : List α)
    (top : CorrelatorMatch α) (rest tie lower : List (CorrelatorMatch α))
    (h : (ra && rb) = false) (hc : conflictsSeen ra rb sa sb top = false)
    (hp : collectTies ra rb sa sb top.score rest = (tie, lower)) (htie : tie ≠ [])
    (hcn : connectedOf ((top :: tie).reverse) ≠ []) :
    boilFuel (f + 1) ra rb sa sb (top :: rest) =
      (match chooseFirstMax (experimentsOf f ra rb
          (seenAddA sa (isolatedOf ((top :: tie).reverse)))
          (seenAddB sb (isolatedOf ((top :: tie).reverse)))
          top (connectedOf ((top :: tie).reverse)) lower) with
      | some e => (isolatedOf ((top :: tie).reverse) ++ e.chosen :: e.eresults,
          e.eseen_a, e.eseen_b, lower)
      | none => ([], sa, sb, lower)) := by
  have hcn2 : ¬(connectedOf (tie.reverse ++ [top]) = []) := by
    simpa [List.reverse_cons] using hcn
  simp [boilFuel, experimentsOf, h, hc, hp, htie, hcn2]

/-! ### Mirror symmetry of the boiler

For a fixed input order, every step of `MatchBoiler.__call__` treats the
two sides symmetrically; these lemmas make that precise. -/

theorem cmSwap_swap (m : CorrelatorMatch α) : cmSwap (cmSwap m) = m := rfl

theorem cmSwap_score (m : CorrelatorMatch α) : (cmSwap m).score = m.score := rfl

theorem conflictsSeen_swap [DecidableEq α] (ra rb : Bool) (sa sb : List α)
    (it : CorrelatorMatch α) :
    conflictsSeen rb ra sb sa (cmSwap it) = conflictsSeen ra rb sa sb it := by
  simp only [conflictsSeen, cmSwap]
  exact Bool.or_comm _ _

theorem collectTies_swap [DecidableEq α] (ra rb : Bool) (sa sb : List α) (ts : ℚ)
    (ms : List (CorrelatorMatch α)) :
    collectTies rb ra sb sa ts (ms.map cmSwap) =
      ((collectTies ra rb sa sb ts ms).1.map cmSwap,
       (collectTies ra rb sa sb ts ms).2.map cmSwap) := by
  induction ms with
  | nil => simp [collectTies]
  | cons it rest ih =>
    by_cases h : it.score = ts
    · by_cases hc : conflictsSeen ra rb sa sb it = true
      · simp only [List.map_cons, collectTies, cmSwap_score, if_pos h,
          conflictsSeen_swap, hc, if_true, ih]
      · simp only [List.map_cons, collectTies, cmSwap_score, if_pos h,
          conflictsSeen_swap, hc, Bool.false_eq_true, if_false, ih]
    · simp [collectTies, cmSwap_score, h]

theorem isolatedIn_swap [DecidableEq α] (items : List (CorrelatorMatch α))
    (it : CorrelatorMatch α) :
    isolatedIn (items.map cmSwap) (cmSwap it) = isolatedIn items it := by
  simp only [isolatedIn, cmSwap, List.countP_map]
  rw [Bool.and_comm]
  congr 1

theorem filter_swap_comm [DecidableEq α] (p q : CorrelatorMatch α → Bool)
    (l : List (CorrelatorMatch α)) :
    (l.filter p).filter q = (l.filter q).filter p := by
  rw [List.filter_filter, List.filter_filter]
  apply List.filter_congr
  intro x _
  exact Bool.and_comm _ _

theorem isolatedOf_swap [DecidableEq α] (items : List (CorrelatorMatch α)) :
    isolatedOf (items.map cmSwap) = (isolatedOf items).map cmSwap := by
  unfold isolatedOf
  rw [List.filter_map]
  congr 1
  apply List.filter_congr
  intro x _
  exact isolatedIn_swap items x

theorem connectedOf_swap [DecidableEq α] (items : List (CorrelatorMatch α)) :
    connectedOf (items.map cmSwap) = (connectedOf items).map cmSwap := by
  unfold connectedOf
  rw [List.filter_map]
  congr 1
  apply List.filter_congr
  intro x _
  simp [isolatedIn_swap items x]

theorem seenAddA_swap [DecidableEq α] (s : List α) (ms : List (CorrelatorMatch α)) :
    seenAddA s (ms.map cmSwap) = seenAddB s ms := by
  induction ms generalizing s with
  | nil => rfl
  | cons m rest ih => exact ih (seenInsert s m.value_b)

theorem seenAddB_swap [DecidableEq α] (s : List α) (ms : List (CorrelatorMatch α)) :
    seenAddB s (ms.map cmSwap) = seenAddA s ms := by
  induction ms generalizing s with
  | nil => rfl
  | cons m rest ih => exact ih (seenInsert s m.value_a)

theorem eraseIdx_map (g : α → β) (l : List α) (i : ℕ) :
    (l.map g).eraseIdx i = (l.eraseIdx i).map g := by
  induction l generalizing i with
  | nil => simp
  | cons x t ih =>
    cases i with
    | zero => simp [List.eraseIdx]
    | succ j => simp [List.eraseIdx, ih j]

theorem expInput_swap [DecidableEq α] (ra rb : Bool) (ch : CorrelatorMatch α)
    (conn lower : List (CorrelatorMatch α)) (i : ℕ) :
    expInput rb ra (cmSwap ch) (conn.map cmSwap) (lower.map cmSwap) i =
      (expInput ra rb ch conn lower i).map cmSwap := by
  have hbase : ((conn.map cmSwap).eraseIdx i).reverse ++ lower.map cmSwap =
      ((conn.eraseIdx i).reverse ++ lower).map cmSwap := by
    rw [eraseIdx_map, ← List.map_reverse, ← List.map_append]
  have hfa : ∀ l : List (CorrelatorMatch α),
      (l.map cmSwap).filter (fun m => decide (m.value_a ≠ (cmSwap ch).value_a)) =
      (l.filter (fun m => decide (m.value_b ≠ ch.value_b))).map cmSwap := by
    intro l
    rw [List.filter_map]
    rfl
  have hfb : ∀ l : List (CorrelatorMatch α),
      (l.map cmSwap).filter (fun m => decide (m.value_b ≠ (cmSwap ch).value_b)) =
      (l.filter (fun m => decide (m.value_a ≠ ch.value_a))).map cmSwap := by
    intro l
    rw [List.filter_map]
    rfl
  by_cases hra : ra
  · by_cases hrb : rb
    · simp only [expInput, hra, hrb, if_true, hbase]
    · simp only [expInput, hra, hrb, if_true, Bool.false_eq_true, if_false, hbase]
      exact hfa _
  · by_cases hrb : rb
    · simp only [expInput, hra, hrb, if_true, Bool.false_eq_true, if_false, hbase]
      exact hfb _
    · simp only [expInput, hra, hrb, Bool.false_eq_true, if_false, hbase]
      rw [hfa, hfb, filter_swap_comm]

theorem chooseFirstMax_map {β2 : Type u} (g : ExperimentOutcome α → ExperimentOutcome β2)
    (hg : ∀ e, (g e).escore = e.escore) (l : List (ExperimentOutcome α)) :
    chooseFirstMax (l.map g) = (chooseFirstMax l).map g := by
  induction l with
  | nil => rfl
  | cons x xs ih =>
    simp only [List.map_cons, chooseFirstMax, ih]
    cases hx : chooseFirstMax xs with
    | none => rfl
    | some f =>
      simp only [Option.map_some']
      rw [hg f, hg x]
      by_cases hgt : f.escore > x.escore
      · rw [if_pos hgt, if_pos hgt]; rfl
      · rw [if_neg hgt, if_neg hgt]; rfl

theorem getD_map {β2 : Type u} (g : α → β2) (l : List α) (i : ℕ) (d : α) :
    (l.map g).getD i (g d) = g (l.getD i d) := by
  induction l generalizing i with
  | nil => simp
  | cons x t ih =>
    cases i with
    | zero => simp
    | succ j => simp [ih j]

/-- The experiment transformation induced by a side swap. -/
def eoSwap (e : ExperimentOutcome α) : ExperimentOutcome α :=
  ⟨e.escore, cmSwap e.chosen, e.eresults.map cmSwap, e.eseen_b, e.eseen_a⟩

theorem experimentsOf_swap [DecidableEq α] {f : ℕ} {ra rb : Bool}
    (IH : ∀ (sa sb : List α) (ms : List (CorrelatorMatch α)),
      boilFuel f rb ra sb sa (ms.map cmSwap) =
      ((boilFuel f ra rb sa sb ms).1.map cmSwap,
       (boilFuel f ra rb sa sb ms).2.2.1,
       (boilFuel f ra rb sa sb ms).2.1,
       (boilFuel f ra rb sa sb ms).2.2.2.map cmSwap))
    (sa1 sb1 : List α) (top : CorrelatorMatch α)
    (conn lower : List (CorrelatorMatch α)) :
    experimentsOf f rb ra sb1 sa1 (cmSwap top) (conn.map cmSwap) (lower.map cmSwap) =
      (experimentsOf f ra rb sa1 sb1 top conn lower).map eoSwap := by
  unfold experimentsOf
  rw [List.length_map, List.map_map]
  apply List.map_congr_left
  intro i hi
  have hitem : (conn.map cmSwap).getD i (cmSwap top) = cmSwap (conn.getD i top) :=
    getD_map cmSwap conn i top
  simp only [Function.comp_apply, hitem, expInput_swap]
  have hsa : seenInsert sb1 (cmSwap (conn.getD i top)).value_a =
      seenInsert sb1 (conn.getD i top).value_b := rfl
  have hsb : seenInsert sa1 (cmSwap (conn.getD i top)).value_b =
      seenInsert sa1 (conn.getD i top).value_a := rfl
  rw [hsa, hsb, IH]
  unfold eoSwap
  have hcomp : ((fun (m : CorrelatorMatch α) => m.score) ∘ cmSwap) = fun m => m.score := by
    funext m
    rfl
  simp [cmSwap_score, List.map_map, hcomp]

theorem boilFuel_swap [DecidableEq α] (f : ℕ) :
    ∀ (ra rb : Bool) (sa sb : List α) (ms : List (CorrelatorMatch α)),
    boilFuel f rb ra sb sa (ms.map cmSwap) =
      ((boilFuel f ra rb sa sb ms).1.map cmSwap,
       (boilFuel f ra rb sa sb ms).2.2.1,
       (boilFuel f ra rb sa sb ms).2.1,
       (boilFuel f ra rb sa sb ms).2.2.2.map cmSwap) := by
  induction f with
  | zero => intro ra rb sa sb ms; rfl
  | succ f IH =>
    intro ra rb sa sb ms
    by_cases hr : (ra && rb) = true
    · obtain ⟨hra, hrb⟩ := Bool.and_eq_true_iff.mp hr
      subst hra
      subst hrb
      rw [boilFuel_reuse, boilFuel_reuse]
      simp [seenAddA_swap, seenAddB_swap]
    · have hr1 : (ra && rb) = false := Bool.not_eq_true _ ▸ hr
      have hr2 : (rb && ra) = false := by rw [Bool.and_comm]; exact hr1
      cases ms with
      | nil =>
        rw [List.map_nil, boilFuel_nil f ra rb sa sb hr1, boilFuel_nil f rb ra sb sa hr2]
        rfl
      | cons top rest =>
        by_cases hc : conflictsSeen ra rb sa sb top = true
        · have hc2 : conflictsSeen rb ra sb sa (cmSwap top) = true := by
            rw [conflictsSeen_swap]; exact hc
          rw [List.map_cons, boilFuel_conflict f rb ra sb sa _ _ hr2 hc2,
            boilFuel_conflict f ra rb sa sb _ _ hr1 hc, IH]
        · have hc1 : conflictsSeen ra rb sa sb top = false := Bool.not_eq_true _ ▸ hc
          have hc2 : conflictsSeen rb ra sb sa (cmSwap top) = false := by
            rw [conflictsSeen_swap]; exact hc1
          rcases hp : collectTies ra rb sa sb top.score rest with ⟨tie, lower⟩
          have hp2 : collectTies rb ra sb sa (cmSwap top).score (rest.map cmSwap) =
              (tie.map cmSwap, lower.map cmSwap) := by
            rw [cmSwap_score, collectTies_swap, hp]
          by_cases htie : tie = []
          · subst htie
            rw [List.map_cons,
              boilFuel_single f rb ra sb sa (cmSwap top) (rest.map cmSwap)
                (lower.map cmSwap) hr2 hc2 (by simpa using hp2),
              boilFuel_single f ra rb sa sb top rest lower hr1 hc1 hp]
            have hIH := IH ra rb (seenInsert sa top.value_a) (seenInsert sb top.value_b) lower
            have hsa : seenInsert sb (cmSwap top).value_a =
                seenInsert sb top.value_b := rfl
            have hsb : seenInsert sa (cmSwap top).value_b =
                seenInsert sa top.value_a := rfl
            rw [hsa, hsb, hIH]
            rfl
          · have hitems : (cmSwap top :: tie.map cmSwap).reverse =
                ((top :: tie).reverse).map cmSwap := by
              rw [← List.map_cons, List.map_reverse]
            by_cases hcn : connectedOf ((top :: tie).reverse) = []
            · have hcn2 : connectedOf ((cmSwap top :: tie.map cmSwap).reverse) = [] := by
                rw [hitems, connectedOf_swap, hcn, List.map_nil]
              have htie2 : tie.map cmSwap ≠ [] := by
                simp [htie]
              rw [List.map_cons,
                boilFuel_isolated f rb ra sb sa (cmSwap top) (rest.map cmSwap)
                  (tie.map cmSwap) (lower.map cmSwap) hr2 hc2 hp2 htie2 hcn2,
                boilFuel_isolated f ra rb sa sb top rest tie lower hr1 hc1 hp htie hcn]
              rw [hitems, isolatedOf_swap, seenAddA_swap, seenAddB_swap]
              rw [IH ra rb (seenAddA sa (isolatedOf ((top :: tie).reverse)))
                (seenAddB sb (isolatedOf ((top :: tie).reverse))) lower]
              simp
            · have hcn2 : connectedOf ((cmSwap top :: tie.map cmSwap).reverse) ≠ [] := by
                rw [hitems, connectedOf_swap]
                simpa using hcn
              have htie2 : tie.map cmSwap ≠ [] := by
                simp [htie]
              rw [List.map_cons,
                boilFuel_connected f rb ra sb sa (cmSwap top) (rest.map cmSwap)
                  (tie.map cmSwap) (lower.map cmSwap) hr2 hc2 hp2 htie2 hcn2,
                boilFuel_connected f ra rb sa sb top rest tie lower hr1 hc1 hp htie hcn]
              rw [hitems, isolatedOf_swap, connectedOf_swap, seenAddA_swap, seenAddB_swap]
              rw [experimentsOf_swap (IH ra rb), chooseFirstMax_map eoSwap (fun e => rfl)]
              cases hch : chooseFirstMax (experimentsOf f ra rb
                  (seenAddA sa (isolatedOf ((top :: tie).reverse)))
                  (seenAddB sb (isolatedOf ((top :: tie).reverse)))
                  top (connectedOf ((top :: tie).reverse)) lower) with
              | none => simp [eoSwap]
              | some e => simp [eoSwap]

/-! ### The boiler's effect on its matches list, and its seen sets -/

theorem boilFuel_rest_nil [DecidableEq α] (f : ℕ) (ra rb : Bool) (sa sb : List α) :
    (boilFuel f ra rb sa sb []).2.2.2 = [] := by
  cases f with
  | zero => rfl
  | succ f =>
    by_cases hr : (ra && rb) = true
    · obtain ⟨hra, hrb⟩ := Bool.and_eq_true_iff.mp hr
      subst hra; subst hrb
      rw [boilFuel_reuse]
    · rw [boilFuel_nil f ra rb sa sb (Bool.not_eq_true _ ▸ hr)]

theorem boilFuel_rest_suffix [DecidableEq α] (f : ℕ) :
    ∀ (ra rb : Bool) (sa sb : List α) (ms : List (CorrelatorMatch α)),
    (boilFuel f ra rb sa sb ms).2.2.2 <:+ ms := by
  induction f with
  | zero => intro ra rb sa sb ms; exact List.suffix_rfl
  | succ f IH =>
    intro ra rb sa sb ms
    by_cases hr : (ra && rb) = true
    · obtain ⟨hra, hrb⟩ := Bool.and_eq_true_iff.mp hr
      subst hra; subst hrb
      rw [boilFuel_reuse]
      exact List.nil_suffix
    · have hr1 : (ra && rb) = false := Bool.not_eq_true _ ▸ hr
      cases ms with
      | nil => rw [boilFuel_rest_nil]
      | cons top rest =>
        by_cases hc : conflictsSeen ra rb sa sb top = true
        · rw [boilFuel_conflict f ra rb sa sb _ _ hr1 hc]
          exact (IH ra rb sa sb rest).trans (List.suffix_cons top rest)
        · have hc1 : conflictsSeen ra rb sa sb top = false := Bool.not_eq_true _ ▸ hc
          rcases hp : collectTies ra rb sa sb top.score rest with ⟨tie, lower⟩
          have hlow : lower <:+ rest := by
            have h2 := collectTies_suffix ra rb sa sb top.score rest
            rw [hp] at h2
            exact h2
          have hlow2 : lower <:+ top :: rest := hlow.trans (List.suffix_cons top rest)
          by_cases htie : tie = []
          · subst htie
            rw [boilFuel_single f ra rb sa sb top rest lower hr1 hc1 hp]
            exact (IH ra rb _ _ lower).trans hlow2
          · by_cases hcn : connectedOf ((top :: tie).reverse) = []
            · rw [boilFuel_isolated f ra rb sa sb top rest tie lower hr1 hc1 hp htie hcn]
              exact (IH ra rb _ _ lower).trans hlow2
            · rw [boilFuel_connected f ra rb sa sb top rest tie lower hr1 hc1 hp htie hcn]
              cases hch : chooseFirstMax (experimentsOf f ra rb
                  (seenAddA sa (isolatedOf ((top :: tie).reverse)))
                  (seenAddB sb (isolatedOf ((top :: tie).reverse)))
                  top (connectedOf ((top :: tie).reverse)) lower) with
              | none => exact hlow2
              | some e => exact hlow2

theorem boilFuel_rest_lt [DecidableEq α] (f : ℕ) (ra rb : Bool) (sa sb : List α)
    (top : CorrelatorMatch α) (rest : List (CorrelatorMatch α)) :
    (boilFuel (f + 1) ra rb sa sb (top :: rest)).2.2.2.length < (top :: rest).length := by
  by_cases hr : (ra && rb) = true
  · obtain ⟨hra, hrb⟩ := Bool.and_eq_true_iff.mp hr
    subst hra; subst hrb
    rw [boilFuel_reuse]
    simp
  · have hr1 : (ra && rb) = false := Bool.not_eq_true _ ▸ hr
    by_cases hc : conflictsSeen ra rb sa sb top = true
    · rw [boilFuel_conflict f ra rb sa sb _ _ hr1 hc]
      have h2 := (boilFuel_rest_suffix f ra rb sa sb rest).length_le
      simp only [List.length_cons]
      omega
    · have hc1 : conflictsSeen ra rb sa sb top = false := Bool.not_eq_true _ ▸ hc
      rcases hp : collectTies ra rb sa sb top.score rest with ⟨tie, lower⟩
      have hlen : tie.length + lower.length ≤ rest.length := by
        have h2 := collectTies_len ra rb sa sb top.score rest
        rw [hp] at h2
        exact h2
      by_cases htie : tie = []
      · subst htie
        rw [boilFuel_single f ra rb sa sb top rest lower hr1 hc1 hp]
        have h2 := (boilFuel_rest_suffix f ra rb (seenInsert sa top.value_a)
          (seenInsert sb top.value_b) lower).length_le
        simp only [List.length_cons, List.length_nil] at *
        omega
      · by_cases hcn : connectedOf ((top :: tie).reverse) = []
        · rw [boilFuel_isolated f ra rb sa sb top rest tie lower hr1 hc1 hp htie hcn]
          have h2 := (boilFuel_rest_suffix f ra rb
            (seenAddA sa (isolatedOf ((top :: tie).reverse)))
            (seenAddB sb (isolatedOf ((top :: tie).reverse))) lower).length_le
          simp only [List.length_cons] at *
          omega
        · rw [boilFuel_connected f ra rb sa sb top rest tie lower hr1 hc1 hp htie hcn]
          cases hch : chooseFirstMax (experimentsOf f ra rb
              (seenAddA sa (isolatedOf ((top :: tie).reverse)))
              (seenAddB sb (isolatedOf ((top :: tie).reverse)))
              top (connectedOf ((top :: tie).reverse)) lower) with
          | none => simp only [List.length_cons]; omega
          | some e => simp only [List.length_cons]; omega

theorem experimentsOf_mem [DecidableEq α] {f : ℕ} {ra rb : Bool} {sa1 sb1 : List α}
    {top : CorrelatorMatch α} {conn lower : List (CorrelatorMatch α)}
    {e : ExperimentOutcome α}
    (he : e ∈ experimentsOf f ra rb sa1 sb1 top conn lower) :
    ∃ i, i < conn.length ∧ e.chosen = conn.getD i top ∧
      e.eresults = (boilFuel f ra rb (seenInsert sa1 (conn.getD i top).value_a)
        (seenInsert sb1 (conn.getD i top).value_b)
        (expInput ra rb (conn.getD i top) conn lower i)).1 ∧
      e.eseen_a = (boilFuel f ra rb (seenInsert sa1 (conn.getD i top).value_a)
        (seenInsert sb1 (conn.getD i top).value_b)
        (expInput ra rb (conn.getD i top) conn lower i)).2.1 ∧
      e.eseen_b = (boilFuel f ra rb (seenInsert sa1 (conn.getD i top).value_a)
        (seenInsert sb1 (conn.getD i top).value_b)
        (expInput ra rb (conn.getD i top) conn lower i)).2.2.1 := by
  unfold experimentsOf at he
  rcases List.mem_map.mp he with ⟨i, hi, hei⟩
  refine ⟨i, List.mem_range.mp (List.mem_reverse.mp hi), ?_, ?_, ?_, ?_⟩ <;>
    rw [← hei]

theorem experimentsOf_ne_nil [DecidableEq α] {f : ℕ} {ra rb : Bool} {sa1 sb1 : List α}
    {top : CorrelatorMatch α} {conn lower : List (CorrelatorMatch α)}
    (hcn : conn ≠ []) :
    experimentsOf f ra rb sa1 sb1 top conn lower ≠ [] := by
  unfold experimentsOf
  simp only [ne_eq, List.map_eq_nil_iff, List.reverse_eq_nil_iff, List.range_eq_nil,
    List.length_eq_zero]
  exact hcn

theorem boilFuel_seen [DecidableEq α] (f : ℕ) :
    ∀ (ra rb : Bool) (sa sb : List α) (ms : List (CorrelatorMatch α)),
    (∀ v, v ∈ (boilFuel f ra rb sa sb ms).2.1 ↔
      v ∈ sa ∨ ∃ x ∈ (boilFuel f ra rb sa sb ms).1, x.value_a = v) ∧
    (∀ v, v ∈ (boilFuel f ra rb sa sb ms).2.2.1 ↔
      v ∈ sb ∨ ∃ x ∈ (boilFuel f ra rb sa sb ms).1, x.value_b = v) := by
  induction f with
  | zero =>
    intro ra rb sa sb ms
    rw [boilFuel_zero]
    simp
  | succ f IH =>
    intro ra rb sa sb ms
    by_cases hr : (ra && rb) = true
    · obtain ⟨hra, hrb⟩ := Bool.and_eq_true_iff.mp hr
      subst hra; subst hrb
      rw [boilFuel_reuse]
      exact ⟨fun v => mem_seenAddA sa ms v, fun v => mem_seenAddB sb ms v⟩
    · have hr1 : (ra && rb) = false := Bool.not_eq_true _ ▸ hr
      cases ms with
      | nil =>
        rw [boilFuel_nil f ra rb sa sb hr1]
        simp
      | cons top rest =>
        by_cases hc : conflictsSeen ra rb sa sb top = true
        · rw [boilFuel_conflict f ra rb sa sb _ _ hr1 hc]
          exact IH ra rb sa sb rest
        · have hc1 : conflictsSeen ra rb sa sb top = false := Bool.not_eq_true _ ▸ hc
          rcases hp : collectTies ra rb sa sb top.score rest with ⟨tie, lower⟩
          by_cases htie : tie = []
          · subst htie
            rw [boilFuel_single f ra rb sa sb top rest lower hr1 hc1 hp]
            obtain ⟨iha, ihb⟩ := IH ra rb (seenInsert sa top.value_a)
              (seenInsert sb top.value_b) lower
            constructor
            · intro v
              rw [iha v, mem_seenInsert]
              simp only [List.mem_cons]
              constructor
              · rintro ((rfl | hv) | ⟨x, hx, rfl⟩)
                · exact Or.inr ⟨top, Or.inl rfl, rfl⟩
                · exact Or.inl hv
                · exact Or.inr ⟨x, Or.inr hx, rfl⟩
              · rintro (hv | ⟨x, (rfl | hx), rfl⟩)
                · exact Or.inl (Or.inr hv)
                · exact Or.inl (Or.inl rfl)
                · exact Or.inr ⟨x, hx, rfl⟩
            · intro v
              rw [ihb v, mem_seenInsert]
              simp only [List.mem_cons]
              constructor
              · rintro ((rfl | hv) | ⟨x, hx, rfl⟩)
                · exact Or.inr ⟨top, Or.inl rfl, rfl⟩
                · exact Or.inl hv
                · exact Or.inr ⟨x, Or.inr hx, rfl⟩
              · rintro (hv | ⟨x, (rfl | hx), rfl⟩)
                · exact Or.inl (Or.inr hv)
                · exact Or.inl (Or.inl rfl)
                · exact Or.inr ⟨x, hx, rfl⟩
          · by_cases hcn : connectedOf ((top :: tie).reverse) = []
            · rw [boilFuel_isolated f ra rb sa sb top rest tie lower hr1 hc1 hp htie hcn]
              obtain ⟨iha, ihb⟩ := IH ra rb
                (seenAddA sa (isolatedOf ((top :: tie).reverse)))
                (seenAddB sb (isolatedOf ((top :: tie).reverse))) lower
              constructor
              · intro v
                rw [iha v, mem_seenAddA]
                simp only [List.mem_append]
                constructor
                · rintro ((hv | ⟨x, hx, rfl⟩) | ⟨x, hx, rfl⟩)
                  · exact Or.inl hv
                  · exact Or.inr ⟨x, Or.inl hx, rfl⟩
                  · exact Or.inr ⟨x, Or.inr hx, rfl⟩
                · rintro (hv | ⟨x, (hx | hx), rfl⟩)
                  · exact Or.inl (Or.inl hv)
                  · exact Or.inl (Or.inr ⟨x, hx, rfl⟩)
                  · exact Or.inr ⟨x, hx, rfl⟩
              · intro v
                rw [ihb v, mem_seenAddB]
                simp only [List.mem_append]
                constructor
                · rintro ((hv | ⟨x, hx, rfl⟩) | ⟨x, hx, rfl⟩)
                  · exact Or.inl hv
                  · exact Or.inr ⟨x, Or.inl hx, rfl⟩
                  · exact Or.inr ⟨x, Or.inr hx, rfl⟩
                · rintro (hv | ⟨x, (hx | hx), rfl⟩)
                  · exact Or.inl (Or.inl hv)
                  · exact Or.inl (Or.inr ⟨x, hx, rfl⟩)
                  · exact Or.inr ⟨x, hx, rfl⟩
            · rw [boilFuel_connected f ra rb sa sb top rest tie lower hr1 hc1 hp htie hcn]
              cases hch : chooseFirstMax (experimentsOf f ra rb
                  (seenAddA sa (isolatedOf ((top :: tie).reverse)))
                  (seenAddB sb (isolatedOf ((top :: tie).reverse)))
                  top (connectedOf ((top :: tie).reverse)) lower) with
              | none =>
                exact absurd (chooseFirstMax_eq_none.mp hch)
                  (experimentsOf_ne_nil hcn)
              | some e =>
                dsimp only
                obtain ⟨i, hi, hch2, hres, hsa, hsb⟩ :=
                  experimentsOf_mem (chooseFirstMax_mem hch)
                obtain ⟨iha, ihb⟩ := IH ra rb
                  (seenInsert (seenAddA sa (isolatedOf ((top :: tie).reverse)))
                    ((connectedOf ((top :: tie).reverse)).getD i top).value_a)
                  (seenInsert (seenAddB sb (isolatedOf ((top :: tie).reverse)))
                    ((connectedOf ((top :: tie).reverse)).getD i top).value_b)
                  (expInput ra rb ((connectedOf ((top :: tie).reverse)).getD i top)
                    (connectedOf ((top :: tie).reverse)) lower i)
                constructor
                · intro v
                  rw [hsa, iha v, mem_seenInsert, mem_seenAddA, ← hres, ← hch2]
                  simp only [List.mem_append, List.mem_cons]
                  constructor
                  · rintro ((rfl | (hv | ⟨x, hx, rfl⟩)) | ⟨x, hx, rfl⟩)
                    · exact Or.inr ⟨e.chosen, Or.inr (Or.inl rfl), rfl⟩
                    · exact Or.inl hv
                    · exact Or.inr ⟨x, Or.inl hx, rfl⟩
                    · exact Or.inr ⟨x, Or.inr (Or.inr hx), rfl⟩
                  · rintro (hv | ⟨x, (hx | (rfl | hx)), rfl⟩)
                    · exact Or.inl (Or.inr (Or.inl hv))
                    · exact Or.inl (Or.inr (Or.inr ⟨x, hx, rfl⟩))
                    · exact Or.inl (Or.inl rfl)
                    · exact Or.inr ⟨x, hx, rfl⟩
                · intro v
                  rw [hsb, ihb v, mem_seenInsert, mem_seenAddB, ← hres, ← hch2]
                  simp only [List.mem_append, List.mem_cons]
                  constructor
                  · rintro ((rfl | (hv | ⟨x, hx, rfl⟩)) | ⟨x, hx, rfl⟩)
                    · exact Or.inr ⟨e.chosen, Or.inr (Or.inl rfl), rfl⟩
                    · exact Or.inl hv
                    · exact Or.inr ⟨x, Or.inl hx, rfl⟩
                    · exact Or.inr ⟨x, Or.inr (Or.inr hx), rfl⟩
                  · rintro (hv | ⟨x, (hx | (rfl | hx)), rfl⟩)
                    · exact Or.inl (Or.inr (Or.inl hv))
                    · exact Or.inl (Or.inr (Or.inr ⟨x, hx, rfl⟩))
                    · exact Or.inl (Or.inl rfl)
                    · exact Or.inr ⟨x, hx, rfl⟩

/-! ### Uniqueness of sides in the boiler's results -/

theorem getD_mem {l : List α} {i : ℕ} (d : α) (h : i < l.length) : l.getD i d ∈ l := by
  induction l generalizing i with
  | nil => simp at h
  | cons x t ih =>
    cases i with
    | zero => simp
    | succ j =>
      simp only [List.getD_cons_succ]
      exact List.mem_cons_of_mem x (ih (by simpa using h))

theorem conflictsSeen_false_a [DecidableEq α] {rb : Bool} {sa sb : List α}
    {it : CorrelatorMatch α} (h : conflictsSeen false rb sa sb it = false) :
    it.value_a ∉ sa := by
  unfold conflictsSeen at h
  rcases Bool.or_eq_false_iff.mp h with ⟨h1, _⟩
  simpa using h1

theorem isolatedIn_counts [DecidableEq α] {items : List (CorrelatorMatch α)}
    {it : CorrelatorMatch α} (h : isolatedIn items it = true) :
    items.countP (fun z => decide (z.value_a = it.value_a)) = 1 ∧
    items.countP (fun z => decide (z.value_b = it.value_b)) = 1 := by
  unfold isolatedIn at h
  obtain ⟨h1, h2⟩ := Bool.and_eq_true_iff.mp h
  exact ⟨by simpa using h1, by simpa using h2⟩

theorem isolatedOf_pairwise_a [DecidableEq α] (items : List (CorrelatorMatch α)) :
    (isolatedOf items).Pairwise (fun x y => x.value_a ≠ y.value_a) := by
  rw [List.pairwise_iff_forall_sublist]
  intro x y hsub
  have hx : x ∈ isolatedOf items := hsub.subset (List.mem_cons_self x [y])
  have hsub2 : ([x, y]).Sublist items := hsub.trans (List.filter_sublist items)
  intro heq
  have hiso : isolatedIn items x = true := (List.mem_filter.mp hx).2
  have hcount := (isolatedIn_counts hiso).1
  have h2 : 2 ≤ items.countP (fun z => decide (z.value_a = x.value_a)) := by
    have h3 := hsub2.countP_le (fun z => decide (z.value_a = x.value_a))
    have h4 : List.countP (fun z => decide (z.value_a = x.value_a)) [x, y] = 2 := by
      simp [List.countP_cons, heq.symm]
    omega
  omega

theorem isolatedOf_pairwise_b [DecidableEq α] (items : List (CorrelatorMatch α)) :
    (isolatedOf items).Pairwise (fun x y => x.value_b ≠ y.value_b) := by
  rw [List.pairwise_iff_forall_sublist]
  intro x y hsub
  have hx : x ∈ isolatedOf items := hsub.subset (List.mem_cons_self x [y])
  have hsub2 : ([x, y]).Sublist items := hsub.trans (List.filter_sublist items)
  intro heq
  have hiso : isolatedIn items x = true := (List.mem_filter.mp hx).2
  have hcount := (isolatedIn_counts hiso).2
  have h2 : 2 ≤ items.countP (fun z => decide (z.value_b = x.value_b)) := by
    have h3 := hsub2.countP_le (fun z => decide (z.value_b = x.value_b))
    have h4 : List.countP (fun z => decide (z.value_b = x.value_b)) [x, y] = 2 := by
      simp [List.countP_cons, heq.symm]
    omega
  omega

theorem isolated_connected_ne [DecidableEq α] {items : List (CorrelatorMatch α)}
    {x y : CorrelatorMatch α} (hx : x ∈ isolatedOf items) (hy : y ∈ connectedOf items) :
    x.value_a ≠ y.value_a ∧ x.value_b ≠ y.value_b := by
  have hxi : x ∈ items := (List.mem_filter.mp hx).1
  have hyi : y ∈ items := (List.mem_filter.mp hy).1
  have hisox : isolatedIn items x = true := (List.mem_filter.mp hx).2
  have hisoy : isolatedIn items y = false := by
    have h2 := (List.mem_filter.mp hy).2
    simpa using h2
  have hne : x ≠ y := by
    intro heq
    rw [heq, hisoy] at hisox
    exact Bool.false_ne_true hisox
  constructor
  · intro heq
    have h2 := two_le_countP_of_two_mem (fun z => decide (z.value_a = x.value_a))
      hxi hyi hne (by simp) (by simp [heq.symm])
    have hcount := (isolatedIn_counts hisox).1
    omega
  · intro heq
    have h2 := two_le_countP_of_two_mem (fun z => decide (z.value_b = x.value_b))
      hxi hyi hne (by simp) (by simp [heq.symm])
    have hcount := (isolatedIn_counts hisox).2
    omega

theorem items_no_conflict [DecidableEq α] {ra rb : Bool} {sa sb : List α}
    {top : CorrelatorMatch α} {rest tie lower : List (CorrelatorMatch α)}
    (hc1 : conflictsSeen ra rb sa sb top = false)
    (hp : collectTies ra rb sa sb top.score rest = (tie, lower)) :
    ∀ x ∈ (top :: tie).reverse, conflictsSeen ra rb sa sb x = false := by
  intro x hx
  rcases List.mem_cons.mp (List.mem_reverse.mp hx) with rfl | hx2
  · exact hc1
  · have h2 := collectTies_tie_mem ra rb sa sb top.score rest
    rw [hp] at h2
    exact (h2 x hx2).1

theorem boilFuel_uniq_a [DecidableEq α] (f : ℕ) :
    ∀ (rb : Bool) (sa sb : List α) (ms : List (CorrelatorMatch α)),
    (boilFuel f false rb sa sb ms).1.Pairwise (fun x y => x.value_a ≠ y.value_a) ∧
    ∀ x ∈ (boilFuel f false rb sa sb ms).1, x.value_a ∉ sa := by
  induction f with
  | zero =>
    intro rb sa sb ms
    rw [boilFuel_zero]
    simp
  | succ f IH =>
    intro rb sa sb ms
    have hr1 : (false && rb) = false := rfl
    cases ms with
    | nil =>
      rw [boilFuel_nil f false rb sa sb hr1]
      simp
    | cons top rest =>
      by_cases hc : conflictsSeen false rb sa sb top = true
      · rw [boilFuel_conflict f false rb sa sb _ _ hr1 hc]
        exact IH rb sa sb rest
      · have hc1 : conflictsSeen false rb sa sb top = false := Bool.not_eq_true _ ▸ hc
        rcases hp : collectTies false rb sa sb top.score rest with ⟨tie, lower⟩
        by_cases htie : tie = []
        · subst htie
          rw [boilFuel_single f false rb sa sb top rest lower hr1 hc1 hp]
          obtain ⟨ihp, ihm⟩ := IH rb (seenInsert sa top.value_a)
            (seenInsert sb top.value_b) lower
          constructor
          · rw [List.pairwise_cons]
            refine ⟨fun y hy => ?_, ihp⟩
            have h2 := ihm y hy
            rw [mem_seenInsert] at h2
            intro heq
            exact h2 (Or.inl heq.symm)
          · intro x hx
            rcases List.mem_cons.mp hx with rfl | hx2
            · exact conflictsSeen_false_a hc1
            · have h2 := ihm x hx2
              rw [mem_seenInsert] at h2
              exact fun hmem => h2 (Or.inr hmem)
        · have hnc := items_no_conflict hc1 hp
          have hisomem : ∀ x ∈ isolatedOf ((top :: tie).reverse),
              x.value_a ∉ sa := fun x hx =>
            conflictsSeen_false_a (hnc x (List.mem_filter.mp hx).1)
          have hisosa1 : ∀ x ∈ isolatedOf ((top :: tie).reverse),
              x.value_a ∈ seenAddA sa (isolatedOf ((top :: tie).reverse)) := by
            intro x hx
            rw [mem_seenAddA]
            exact Or.inr ⟨x, hx, rfl⟩
          by_cases hcn : connectedOf ((top :: tie).reverse) = []
          · rw [boilFuel_isolated f false rb sa sb top rest tie lower hr1 hc1 hp htie hcn]
            obtain ⟨ihp, ihm⟩ := IH rb
              (seenAddA sa (isolatedOf ((top :: tie).reverse)))
              (seenAddB sb (isolatedOf ((top :: tie).reverse))) lower
            constructor
            · rw [List.pairwise_append]
              refine ⟨isolatedOf_pairwise_a _, ihp, fun x hx y hy => ?_⟩
              have h2 := ihm y hy
              intro heq
              exact h2 (heq ▸ hisosa1 x hx)
            · intro x hx
              rcases List.mem_append.mp hx with hx2 | hx2
              · exact hisomem x hx2
              · have h2 := ihm x hx2
                rw [mem_seenAddA] at h2
                exact fun hmem => h2 (Or.inl hmem)
          · rw [boilFuel_connected f false rb sa sb top rest tie lower hr1 hc1 hp htie hcn]
            cases hch : chooseFirstMax (experimentsOf f false rb
                (seenAddA sa (isolatedOf ((top :: tie).reverse)))
                (seenAddB sb (isolatedOf ((top :: tie).reverse)))
                top (connectedOf ((top :: tie).reverse)) lower) with
            | none => simp
            | some e =>
              dsimp only
              obtain ⟨i, hi, hch2, hres, hsa, hsb⟩ :=
                experimentsOf_mem (chooseFirstMax_mem hch)
              have hchosen : e.chosen ∈ connectedOf ((top :: tie).reverse) := by
                rw [hch2]
                exact getD_mem top hi
              have hchosenne : ∀ x ∈ isolatedOf ((top :: tie).reverse),
                  x.value_a ≠ e.chosen.value_a ∧ x.value_b ≠ e.chosen.value_b :=
                fun x hx => isolated_connected_ne hx hchosen
              obtain ⟨ihp, ihm⟩ := IH rb
                (seenInsert (seenAddA sa (isolatedOf ((top :: tie).reverse)))
                  ((connectedOf ((top :: tie).reverse)).getD i top).value_a)
                (seenInsert (seenAddB sb (isolatedOf ((top :: tie).reverse)))
                  ((connectedOf ((top :: tie).reverse)).getD i top).value_b)
                (expInput false rb ((connectedOf ((top :: tie).reverse)).getD i top)
                  (connectedOf ((top :: tie).reverse)) lower i)
              rw [← hres] at ihp ihm
              rw [← hch2] at ihm
              constructor
              · rw [List.pairwise_append]
                refine ⟨isolatedOf_pairwise_a _, ?_, ?_⟩
                · rw [List.pairwise_cons]
                  refine ⟨fun y hy => ?_, ihp⟩
                  have h2 := ihm y hy
                  rw [mem_seenInsert] at h2
                  intro heq
                  exact h2 (Or.inl heq.symm)
                · intro x hx y hy
                  rcases List.mem_cons.mp hy with rfl | hy2
                  · exact (hchosenne x hx).1
                  · have h2 := ihm y hy2
                    rw [mem_seenInsert, mem_seenAddA] at h2
                    intro heq
                    exact h2 (Or.inr (Or.inr ⟨x, hx, heq⟩))
              · intro x hx
                rcases List.mem_append.mp hx with hx2 | hx2
                · exact hisomem x hx2
                · rcases List.mem_cons.mp hx2 with rfl | hx3
                  · exact conflictsSeen_false_a
                      (hnc e.chosen (List.mem_filter.mp hchosen).1)
                  · have h2 := ihm x hx3
                    rw [mem_seenInsert, mem_seenAddA] at h2
                    exact fun hmem => h2 (Or.inr (Or.inl hmem))

/-! ### Results are drawn from the input list; truncation facts -/

theorem collectTies_tie_subset [DecidableEq α] (ra rb : Bool) (sa sb : List α)
    (ts : ℚ) (ms : List (CorrelatorMatch α)) :
    ∀ x ∈ (collectTies ra rb sa sb ts ms).1, x ∈ ms := by
  induction ms with
  | nil => simp [collectTies]
  | cons it rest ih =>
    by_cases h : it.score = ts
    · by_cases hc : conflictsSeen ra rb sa sb it = true
      · simp only [collectTies, if_pos h, hc, if_true]
        exact fun x hx => List.mem_cons_of_mem it (ih x hx)
      · simp only [collectTies, if_pos h, hc, Bool.false_eq_true, if_false]
        intro x hx
        rcases List.mem_cons.mp hx with rfl | hx2
        · exact List.mem_cons_self x rest
        · exact List.mem_cons_of_mem it (ih x hx2)
    · simp [collectTies, h]

theorem expInput_subset [DecidableEq α] {ra rb : Bool} {ch : CorrelatorMatch α}
    {conn lower : List (CorrelatorMatch α)} {i : ℕ} :
    ∀ x ∈ expInput ra rb ch conn lower i, x ∈ conn ∨ x ∈ lower := by
  intro x hx
  unfold expInput at hx
  have h0 : ∀ y ∈ (conn.eraseIdx i).reverse ++ lower, y ∈ conn ∨ y ∈ lower := by
    intro y hy
    rcases List.mem_append.mp hy with hy2 | hy2
    · exact Or.inl ((List.eraseIdx_sublist conn i).subset (List.mem_reverse.mp hy2))
    · exact Or.inr hy2
  have h1 : ∀ y ∈ (if ra then (conn.eraseIdx i).reverse ++ lower
      else ((conn.eraseIdx i).reverse ++ lower).filter
        (fun m => decide (m.value_a ≠ ch.value_a))), y ∈ conn ∨ y ∈ lower := by
    intro y hy
    by_cases hra : ra
    · rw [if_pos hra] at hy
      exact h0 y hy
    · rw [if_neg hra] at hy
      exact h0 y (List.mem_of_mem_filter hy)
  by_cases hrb : rb
  · rw [if_pos hrb] at hx
    exact h1 x hx
  · rw [if_neg hrb] at hx
    exact h1 x (List.mem_of_mem_filter hx)

theorem boilFuel_results_subset [DecidableEq α] (f : ℕ) :
    ∀ (ra rb : Bool) (sa sb : List α) (ms : List (CorrelatorMatch α)),
    ∀ x ∈ (boilFuel f ra rb sa sb ms).1, x ∈ ms := by
  induction f with
  | zero =>
    intro ra rb sa sb ms
    rw [boilFuel_zero]
    simp
  | succ f IH =>
    intro ra rb sa sb ms
    by_cases hr : (ra && rb) = true
    · obtain ⟨hra, hrb⟩ := Bool.and_eq_true_iff.mp hr
      subst hra; subst hrb
      rw [boilFuel_reuse]
      exact fun x hx => hx
    · have hr1 : (ra && rb) = false := Bool.not_eq_true _ ▸ hr
      cases ms with
      | nil =>
        rw [boilFuel_nil f ra rb sa sb hr1]
        simp
      | cons top rest =>
        by_cases hc : conflictsSeen ra rb sa sb top = true
        · rw [boilFuel_conflict f ra rb sa sb _ _ hr1 hc]
          exact fun x hx => List.mem_cons_of_mem top (IH ra rb sa sb rest x hx)
        · have hc1 : conflictsSeen ra rb sa sb top = false := Bool.not_eq_true _ ▸ hc
          rcases hp : collectTies ra rb sa sb top.score rest with ⟨tie, lower⟩
          have hlowsub : ∀ x ∈ lower, x ∈ rest := by
            have h2 := collectTies_suffix ra rb sa sb top.score rest
            rw [hp] at h2
            exact fun x hx => h2.subset hx
          have htiesub : ∀ x ∈ tie, x ∈ rest := by
            have h2 := collectTies_tie_subset ra rb sa sb top.score rest
            rw [hp] at h2
            exact h2
          have hitemsub : ∀ x ∈ (top :: tie).reverse, x ∈ top :: rest := by
            intro x hx
            rcases List.mem_cons.mp (List.mem_reverse.mp hx) with rfl | hx2
            · exact List.mem_cons_self x rest
            · exact List.mem_cons_of_mem top (htiesub x hx2)
          by_cases htie : tie = []
          · subst htie
            rw [boilFuel_single f ra rb sa sb top rest lower hr1 hc1 hp]
            intro x hx
            rcases List.mem_cons.mp hx with rfl | hx2
            · exact List.mem_cons_self x rest
            · exact List.mem_cons_of_mem top
                (hlowsub x (IH ra rb _ _ lower x hx2))
          · by_cases hcn : connectedOf ((top :: tie).reverse) = []
            · rw [boilFuel_isolated f ra rb sa sb top rest tie lower hr1 hc1 hp htie hcn]
              intro x hx
              rcases List.mem_append.mp hx with hx2 | hx2
              · exact hitemsub x (List.mem_filter.mp hx2).1
              · exact List.mem_cons_of_mem top
                  (hlowsub x (IH ra rb _ _ lower x hx2))
            · rw [boilFuel_connected f ra rb sa sb top rest tie lower hr1 hc1 hp htie hcn]
              cases hch : chooseFirstMax (experimentsOf f ra rb
                  (seenAddA sa (isolatedOf ((top :: tie).reverse)))
                  (seenAddB sb (isolatedOf ((top :: tie).reverse)))
                  top (connectedOf ((top :: tie).reverse)) lower) with
              | none => simp
              | some e =>
                dsimp only
                obtain ⟨i, hi, hch2, hres, hsa, hsb⟩ :=
                  experimentsOf_mem (chooseFirstMax_mem hch)
                have hconnsub : ∀ x ∈ connectedOf ((top :: tie).reverse),
                    x ∈ top :: rest :=
                  fun x hx => hitemsub x (List.mem_filter.mp hx).1
                intro x hx
                rcases List.mem_append.mp hx with hx2 | hx2
                · exact hitemsub x (List.mem_filter.mp hx2).1
                · rcases List.mem_cons.mp hx2 with rfl | hx3
                  · exact hconnsub e.chosen (hch2 ▸ getD_mem top hi)
                  · have h4 := IH ra rb _ _ _ x (hres ▸ hx3)
                    rcases expInput_subset x h4 with h5 | h5
                    · exact hconnsub x h5
                    · exact List.mem_cons_of_mem top (hlowsub x h5)

theorem matchBoiler_results_subset [DecidableEq α] (ra rb : Bool)
    (ms : List (CorrelatorMatch α)) :
    ∀ x ∈ (matchBoiler ra rb ms).1, x ∈ ms := by
  intro x hx
  have h2 := boilFuel_results_subset ms.length ra rb [] [] ms.reverse x hx
  exact List.mem_reverse.mp h2

theorem truncAtMin_sublist (m : ℚ) (l : List (CorrelatorMatch ℕ)) :
    ((truncAtMin m l).2).Sublist l := by
  induction l with
  | nil => simp [truncAtMin]
  | cons it rest ih =>
    by_cases h : it.score ≤ m
    · simp [truncAtMin, h]
    · simp only [truncAtMin, h, if_neg, if_false]
      exact List.Sublist.cons₂ it ih

theorem truncAtMin_scores (m : ℚ) (l : List (CorrelatorMatch ℕ)) :
    ∀ x ∈ (truncAtMin m l).2, m < x.score := by
  induction l with
  | nil => simp [truncAtMin]
  | cons it rest ih =>
    by_cases h : it.score ≤ m
    · simp [truncAtMin, h]
    · simp only [truncAtMin, h, if_false]
      intro x hx
      rcases List.mem_cons.mp hx with rfl | hx2
      · exact lt_of_not_ge h
      · exact ih x hx2

theorem truncAtMin_all (m : ℚ) (l : List (CorrelatorMatch ℕ))
    (h : ∀ x ∈ l, m < x.score) : (truncAtMin m l).2 = l := by
  induction l with
  | nil => simp [truncAtMin]
  | cons it rest ih =>
    have h1 : ¬(it.score ≤ m) := not_le.mpr (h it (List.mem_cons_self it rest))
    simp only [truncAtMin, h1, if_false]
    rw [ih (fun x hx => h x (List.mem_cons_of_mem it hx))]

/-! ### Support for the correlate-level claims -/

theorem pickLastMax_mem {l : List ChannelOutcome} {o : ChannelOutcome}
    (h : pickLastMax l = some o) : o ∈ l := by
  induction l with
  | nil => simp [pickLastMax] at h
  | cons x xs ih =>
    simp only [pickLastMax] at h
    cases hx : pickLastMax xs with
    | none =>
      rw [hx] at h
      simp only [Option.some.injEq] at h
      exact h ▸ List.mem_cons_self x xs
    | some d =>
      rw [hx] at h
      have h2 : (if d.cumulative ≥ x.cumulative then some d else some x) = some o := h
      by_cases hge : d.cumulative ≥ x.cumulative
      · rw [if_pos hge] at h2
        simp only [Option.some.injEq] at h2
        exact List.mem_cons_of_mem x (ih (h2 ▸ hx))
      · rw [if_neg hge] at h2
        simp only [Option.some.injEq] at h2
        exact h2 ▸ List.mem_cons_self x xs

theorem channelOutcome_some {args : CorrelateArgs} {ms : List (CorrelatorMatch ℕ)}
    {o : ChannelOutcome} (h : channelOutcome args ms = some o) :
    o.boiled = (matchBoiler args.reuse_a args.reuse_b
      (sortLe (fun x y : CorrelatorMatch ℕ => decide (x.score ≤ y.score)) ms)).1 ∧
    o.seen_a = (matchBoiler args.reuse_a args.reuse_b
      (sortLe (fun x y : CorrelatorMatch ℕ => decide (x.score ≤ y.score)) ms)).2.1 ∧
    o.seen_b = (matchBoiler args.reuse_a args.reuse_b
      (sortLe (fun x y : CorrelatorMatch ℕ => decide (x.score ≤ y.score)) ms)).2.2.1 ∧
    o.kept = (truncAtMin args.minimum_score o.boiled).2 ∧
    o.cumulative = (truncAtMin args.minimum_score o.boiled).1 := by
  unfold channelOutcome at h
  by_cases ht : ((truncAtMin args.minimum_score (matchBoiler args.reuse_a args.reuse_b
      (sortLe (fun x y : CorrelatorMatch ℕ => decide (x.score ≤ y.score)) ms)).1).2).isEmpty
  · rw [if_pos ht] at h
    exact absurd h (by simp)
  · rw [if_neg ht] at h
    simp only [Option.some.injEq] at h
    subst h
    exact ⟨rfl, rfl, rfl, rfl, rfl⟩

theorem correlate_ok_result {c : Correlator} {args : CorrelateArgs}
    {res : CorrelatorResult} (h : c.correlate args = Except.ok res) :
    res = resultOf c args := by
  unfold Correlator.correlate Correlator.correlateDetailed at h
  by_cases h1 : (!(c.dataset_a.validate && c.dataset_b.validate)) = true
  · rw [if_pos h1] at h
    exact absurd h (by simp [Except.map])
  · rw [if_neg h1] at h
    by_cases h2 : (!(decide ((0:ℚ) ≤ args.minimum_score))) = true
    · rw [if_pos h2] at h
      exact absurd h (by simp [Except.map])
    · rw [if_neg h2] at h
      by_cases h3 : (decide (args.ranking_factor ≠ 0) &&
          decide (args.ranking_bonus ≠ 0)) = true
      · rw [if_pos h3] at h
        exact absurd h (by simp [Except.map])
      · rw [if_neg h3] at h
        simp only [Except.map, Except.ok.injEq] at h
        exact h.symm

theorem boilFuel_uniq_b [DecidableEq α] (f : ℕ) (ra : Bool) (sa sb : List α)
    (ms : List (CorrelatorMatch α)) :
    (boilFuel f ra false sa sb ms).1.Pairwise (fun x y => x.value_b ≠ y.value_b) ∧
    ∀ x ∈ (boilFuel f ra false sa sb ms).1, x.value_b ∉ sb := by
  have hswap := boilFuel_swap f ra false sa sb ms
  have huniq := boilFuel_uniq_a f ra sb sa (ms.map cmSwap)
  rw [hswap] at huniq
  obtain ⟨hp, hm⟩ := huniq
  constructor
  · rw [List.pairwise_map] at hp
    exact hp
  · intro x hx
    exact hm (cmSwap x) (List.mem_map_of_mem cmSwap hx)

theorem matchBoiler_uniq_a [DecidableEq α] (rb : Bool)
    (ms : List (CorrelatorMatch α)) :
    (matchBoiler false rb ms).1.Pairwise (fun x y => x.value_a ≠ y.value_a) :=
  (boilFuel_uniq_a ms.length rb [] [] ms.reverse).1

theorem matchBoiler_uniq_b [DecidableEq α] (ra : Bool)
    (ms : List (CorrelatorMatch α)) :
    (matchBoiler ra false ms).1.Pairwise (fun x y => x.value_b ≠ y.value_b) :=
  (boilFuel_uniq_b ms.length ra [] [] ms.reverse).1

theorem mem_dedupAdj [DecidableEq α] : ∀ {l : List α} {x : α}, x ∈ dedupAdj l → x ∈ l := by
  intro l
  induction l with
  | nil => simp [dedupAdj]
  | cons y t ih =>
    cases t with
    | nil => simp [dedupAdj]
    | cons z t2 =>
      intro x hx
      by_cases h : y = z
      · simp only [dedupAdj, if_pos h] at hx
        exact List.mem_cons_of_mem y (ih hx)
      · simp only [dedupAdj, if_neg h] at hx
        rcases List.mem_cons.mp hx with rfl | hx2
        · exact List.mem_cons_self x (z :: t2)
        · exact List.mem_cons_of_mem y (ih hx2)

theorem assocFind_mem [DecidableEq β] {l : List (β × α)} {k : β} {v : α}
    (h : assocFind l k = some v) : (k, v) ∈ l := by
  induction l with
  | nil => simp [assocFind] at h
  | cons p rest ih =>
    unfold assocFind at h
    by_cases hk : p.1 = k
    · rw [if_pos hk] at h
      simp only [Option.some.injEq] at h
      have hp : p = (k, v) := by
        cases p
        simp only [Prod.mk.injEq]
        exact ⟨hk, h⟩
      exact hp ▸ List.mem_cons_self p rest
    · rw [if_neg hk] at h
      exact List.mem_cons_of_mem p (ih h)

theorem validate_facts {d : Dataset} (hd : d.validate = true) :
    d.values.Nodup ∧
    ∀ p ∈ d.key_to_index, ∀ round ∈ p.2, ∀ i ∈ round, i < d.values.length := by
  unfold Dataset.validate at hd
  simp only [Bool.and_eq_true, decide_eq_true_eq, List.all_eq_true] at hd
  exact ⟨hd.1.1.1.2, fun p hp round hr i hi => hd.1.2 p hp round hr i hi⟩

theorem roundZeroIdx_bound {d : Dataset} (hd : d.validate = true) (k : Key) :
    ∀ i ∈ roundZeroIdx d k, i < d.values.length := by
  intro i hi
  unfold roundZeroIdx at hi
  cases hfind : assocFind d.key_to_index k with
  | none => rw [hfind] at hi; simp at hi
  | some rounds =>
    rw [hfind] at hi
    simp only [Option.getD_some] at hi
    have hmem : (k, rounds) ∈ d.key_to_index := assocFind_mem hfind
    cases hrounds : rounds with
    | nil => rw [hrounds] at hi; simp at hi
    | cons r0 rs =>
      rw [hrounds] at hi
      have hr0 : (rounds.getD 0 []) = r0 := by rw [hrounds]; rfl
      have hr0mem : r0 ∈ rounds := hrounds ▸ List.mem_cons_self r0 rs
      exact (validate_facts hd).2 (k, rounds) hmem r0 hr0mem i hi

theorem allIndexesFor_bounds {a b : Dataset} {strA strB : Streamlined}
    (ha : a.validate = true) (hb : b.validate = true) :
    ∀ p ∈ allIndexesFor a b strA strB,
      p.1 < a.values.length ∧ p.2 < b.values.length := by
  intro p hp
  unfold allIndexesFor at hp
  have h2 := mem_dedupAdj hp
  rw [mem_sortLe] at h2
  rcases List.mem_flatMap.mp h2 with ⟨k, _, hpk⟩
  rcases List.mem_flatMap.mp hpk with ⟨ia, hia, hpia⟩
  rcases List.mem_map.mp hpia with ⟨ib, hib, rfl⟩
  exact ⟨roundZeroIdx_bound ha k ia hia, roundZeroIdx_bound hb k ib hib⟩

theorem scoredPairs_mem {c : Correlator} {args : CorrelateArgs}
    {t : (ℕ × ℕ) × ℚ} (ht : t ∈ scoredPairs c args) :
    t.1 ∈ allIndexesFor c.dataset_a c.dataset_b
      (c.dataset_a.precompute c.dataset_b) (c.dataset_b.precompute c.dataset_a) := by
  unfold scoredPairs at ht
  rcases List.mem_map.mp ht with ⟨u, hu, rfl⟩
  rcases List.mem_map.mp hu with ⟨p, hp, rfl⟩
  exact hp

theorem channelsOf_shape (c : Correlator) (args : CorrelateArgs) :
    ∀ ch ∈ channelsOf c args, ∃ g : ((ℕ × ℕ) × ℚ) → CorrelatorMatch ℕ,
      ch = (scoredPairs c args).map g ∧
      ∀ t, (g t).value_a = t.1.1 ∧ (g t).value_b = t.1.2 := by
  intro ch hch
  unfold channelsOf at hch
  by_cases hur : usingRankings c args = true
  · rw [if_pos hur] at hch
    rcases List.mem_append.mp hch with hch2 | hch2
    · by_cases h1 : args.ranking = RankingApproach.AbsoluteRanking ∨
          args.ranking = RankingApproach.BestRanking
      · rw [if_pos h1] at hch2
        rcases List.mem_cons.mp hch2 with rfl | hch3
        · exact ⟨_, rfl, fun t => ⟨rfl, rfl⟩⟩
        · simp at hch3
      · rw [if_neg h1] at hch2
        simp at hch2
    · by_cases h2 : args.ranking = RankingApproach.RelativeRanking ∨
          args.ranking = RankingApproach.BestRanking
      · rw [if_pos h2] at hch2
        rcases List.mem_cons.mp hch2 with rfl | hch3
        · exact ⟨_, rfl, fun t => ⟨rfl, rfl⟩⟩
        · simp at hch3
      · rw [if_neg h2] at hch2
        simp at hch2
  · rw [if_neg hur] at hch
    rcases List.mem_cons.mp hch with rfl | hch2
    · exact ⟨_, rfl, fun t => ⟨rfl, rfl⟩⟩
    · simp at hch2

theorem correlate_ok_guards {c : Correlator} {args : CorrelateArgs}
    {res : CorrelatorResult} (h : c.correlate args = Except.ok res) :
    c.dataset_a.validate = true ∧ c.dataset_b.validate = true ∧
    0 ≤ args.minimum_score := by
  unfold Correlator.correlate Correlator.correlateDetailed at h
  by_cases h1 : (!(c.dataset_a.validate && c.dataset_b.validate)) = true
  · rw [if_pos h1] at h
    exact absurd h (by simp [Except.map])
  · rw [if_neg h1] at h
    have hv : (c.dataset_a.validate && c.dataset_b.validate) = true := by
      rcases Bool.eq_false_or_eq_true (c.dataset_a.validate && c.dataset_b.validate)
        with h2 | h2
      · exact h2
      · rw [h2] at h1
        exact absurd rfl h1
    obtain ⟨hva, hvb⟩ := Bool.and_eq_true_iff.mp hv
    by_cases h2 : (!(decide ((0:ℚ) ≤ args.minimum_score))) = true
    · rw [if_pos h2] at h
      exact absurd h (by simp [Except.map])
    · have hm : 0 ≤ args.minimum_score := by
        by_contra hcon
        rw [decide_eq_false hcon] at h2
        exact h2 rfl
      exact ⟨hva, hvb, hm⟩

theorem getD_inj {l : List α} (hnd : l.Nodup) {i j : ℕ} (hi : i < l.length)
    (hj : j < l.length) (hne : i ≠ j) (d : α) : l.getD i d ≠ l.getD j d := by
  induction l generalizing i j with
  | nil => simp at hi
  | cons x t ih =>
    obtain ⟨hx, hnd2⟩ := List.nodup_cons.mp hnd
    cases i with
    | zero =>
      cases j with
      | zero => exact absurd rfl hne
      | succ j2 =>
        simp only [List.getD_cons_zero, List.getD_cons_succ]
        intro heq
        exact hx (heq ▸ getD_mem d (by simpa using hj))
    | succ i2 =>
      cases j with
      | zero =>
        simp only [List.getD_cons_zero, List.getD_cons_succ]
        intro heq
        exact hx (heq ▸ getD_mem d (by simpa using hi))
      | succ j2 =>
        simp only [List.getD_cons_succ]
        exact ih hnd2 (by simpa using hi) (by simpa using hj) (by simpa using hne)

/-- For a successful run with a chosen outcome, every kept match carries
value indices inside both datasets. -/
theorem chosen_kept_bounds {c : Correlator} {args : CorrelateArgs}
    {o : ChannelOutcome} (hch : chosenOf c args = some o)
    (ha : c.dataset_a.validate = true) (hb : c.dataset_b.validate = true) :
    ∀ m ∈ o.boiled, m.value_a < c.dataset_a.values.length ∧
      m.value_b < c.dataset_b.values.length := by
  unfold chosenOf at hch
  have ho := pickLastMax_mem hch
  unfold outcomesOf at ho
  obtain ⟨mschan, hmschan, hco⟩ := List.mem_filterMap.mp ho
  obtain ⟨hb2, _, _, _, _⟩ := channelOutcome_some hco
  intro m hm
  rw [hb2] at hm
  have h3 := matchBoiler_results_subset args.reuse_a args.reuse_b _ m hm
  rw [mem_sortLe] at h3
  obtain ⟨g, rfl, hg⟩ := channelsOf_shape c args mschan hmschan
  rcases List.mem_map.mp h3 with ⟨t, ht, rfl⟩
  have h4 := allIndexesFor_bounds ha hb t.1 (scoredPairs_mem ht)
  rw [(hg t).1, (hg t).2]
  exact h4

theorem matchBoiler_seen [DecidableEq α] (ra rb : Bool)
    (ms : List (CorrelatorMatch α)) :
    (∀ v, v ∈ (matchBoiler ra rb ms).2.1 ↔
      ∃ x ∈ (matchBoiler ra rb ms).1, x.value_a = v) ∧
    (∀ v, v ∈ (matchBoiler ra rb ms).2.2.1 ↔
      ∃ x ∈ (matchBoiler ra rb ms).1, x.value_b = v) := by
  have h := boilFuel_seen ms.length ra rb [] [] ms.reverse
  have e1 : (matchBoiler ra rb ms).2.1 =
      (boilFuel ms.length ra rb [] [] ms.reverse).2.1 := rfl
  have e2 : (matchBoiler ra rb ms).1 =
      (boilFuel ms.length ra rb [] [] ms.reverse).1 := rfl
  have e3 : (matchBoiler ra rb ms).2.2.1 =
      (boilFuel ms.length ra rb [] [] ms.reverse).2.2.1 := rfl
  constructor
  · intro v
    rw [e1, e2]
    simpa using h.1 v
  · intro v
    rw [e3, e2]
    simpa using h.2 v

theorem unmatchedOf_subset {values : List Value} {seen : List ℕ} :
    ∀ v ∈ unmatchedOf values seen, v ∈ values := by
  intro v hv
  unfold unmatchedOf at hv
  have hs : ((values.enum.filter (fun q => !(seen.contains q.1))).map
      (fun q => q.2)).Sublist (values.enum.map (fun q => q.2)) :=
    (List.filter_sublist _).map _
  have h2 := hs.subset hv
  have h3 : values.enum.map (fun q : ℕ × Value => q.2) = values := List.enum_map_snd values
  rw [h3] at h2
  exact h2

theorem unmatchedOf_mem {values : List Value} {seen : List ℕ} {i : ℕ}
    (hi : i < values.length) (hns : i ∉ seen) :
    values.getD i "" ∈ unmatchedOf values seen := by
  unfold unmatchedOf
  refine List.mem_map.mpr ⟨(i, values.getD i ""), List.mem_filter.mpr ⟨?_, ?_⟩, rfl⟩
  · refine List.mk_mem_enum_iff_getElem?.mpr ?_
    rw [List.getElem?_eq_getElem hi, List.getD_eq_getElem values "" hi]
  · simpa using hns

theorem unmatchedOf_not_seen {values : List Value} {seen : List ℕ}
    {v : Value} (hv : v ∈ unmatchedOf values seen) :
    ∃ i, i < values.length ∧ values.getD i "" = v ∧ i ∉ seen := by
  unfold unmatchedOf at hv
  rcases List.mem_map.mp hv with ⟨q, hq, rfl⟩
  obtain ⟨hq1, hq2⟩ := List.mem_filter.mp hq
  have h3 := List.mk_mem_enum_iff_getElem?.mp (by exact hq1)
  have h4 : q.1 < values.length := by
    by_contra hcon
    rw [List.getElem?_eq_none (le_of_not_lt hcon)] at h3
    exact Option.noConfusion h3
  refine ⟨q.1, h4, ?_, by simpa using hq2⟩
  rw [List.getElem?_eq_getElem h4] at h3
  rw [List.getD_eq_getElem values "" h4]
  exact Option.some.inj h3

/-! ### Support for the tokenizer claim -/

theorem char_le_toNat {c d : Char} (h : c ≤ d) : c.toNat ≤ d.toNat := h

theorem charToNat_ofNat {n : ℕ} (h : n < 55296) : (Char.ofNat n).toNat = n := by
  unfold Char.ofNat
  rw [dif_pos (Or.inl h)]
  rfl

theorem asciiLower_idem (c : Char) : asciiLower (asciiLower c) = asciiLower c := by
  by_cases hc : (decide ('A' ≤ c) && decide (c ≤ 'Z')) = true
  · have h1 : asciiLower c = Char.ofNat (c.toNat + 32) := by
      unfold asciiLower
      rw [if_pos hc]
    obtain ⟨h2, h3⟩ := Bool.and_eq_true_iff.mp hc
    have hA := char_le_toNat (of_decide_eq_true h2)
    have hZ := char_le_toNat (of_decide_eq_true h3)
    have eA : ('A').toNat = 65 := rfl
    have eZ : ('Z').toNat = 90 := rfl
    rw [eA] at hA
    rw [eZ] at hZ
    have ht : (asciiLower c).toNat = c.toNat + 32 := by
      rw [h1]
      exact charToNat_ofNat (by omega)
    have hnz : ¬(asciiLower c ≤ 'Z') := by
      intro hle
      have h5 := char_le_toNat hle
      rw [ht, eZ] at h5
      omega
    have hcond : (decide ('A' ≤ asciiLower c) && decide (asciiLower c ≤ 'Z')) = false := by
      rw [decide_eq_false hnz, Bool.and_false]
    show (if (decide ('A' ≤ asciiLower c) && decide (asciiLower c ≤ 'Z')) = true then
        Char.ofNat ((asciiLower c).toNat + 32) else asciiLower c) = asciiLower c
    rw [if_neg (by rw [hcond]; exact Bool.false_ne_true)]
  · have h1 : asciiLower c = c := by
      unfold asciiLower
      rw [if_neg hc]
    rw [h1]
    exact h1

theorem wordsAux_chars (q : Char → Bool) :
    ∀ (s acc : List Char), (∀ c ∈ acc, q c = true) →
    (∀ c ∈ s, isSpaceChar c = false → q c = true) →
    ∀ w ∈ wordsAux acc s, ∀ c ∈ w, q c = true := by
  intro s
  induction s with
  | nil =>
    intro acc hacc _ w hw c hc
    unfold wordsAux at hw
    by_cases he : acc.isEmpty = true
    · rw [if_pos he] at hw
      simp at hw
    · rw [if_neg he] at hw
      rcases List.mem_singleton.mp hw with rfl
      exact hacc c (List.mem_reverse.mp hc)
  | cons x xs ih =>
    intro acc hacc hs w hw c hc
    unfold wordsAux at hw
    by_cases hx : isSpaceChar x = true
    · rw [if_pos hx] at hw
      by_cases he : acc.isEmpty = true
      · rw [if_pos he] at hw
        exact ih [] (by simp) (fun d hd hnd => hs d (List.mem_cons_of_mem x hd) hnd) w hw c hc
      · rw [if_neg he] at hw
        rcases List.mem_cons.mp hw with rfl | hw2
        · exact hacc c (List.mem_reverse.mp hc)
        · exact ih [] (by simp) (fun d hd hnd => hs d (List.mem_cons_of_mem x hd) hnd)
            w hw2 c hc
    · rw [if_neg hx] at hw
      refine ih (x :: acc) ?_ (fun d hd hnd => hs d (List.mem_cons_of_mem x hd) hnd) w hw c hc
      intro d hd
      rcases List.mem_cons.mp hd with rfl | hd2
      · exact hs d (List.mem_cons_self _ _) (eq_false_of_ne_true hx)
      · exact hacc d hd2

theorem words_chars (q : Char → Bool) (s : List Char)
    (hs : ∀ c ∈ s, isSpaceChar c = false → q c = true) :
    ∀ w ∈ words s, ∀ c ∈ w, q c = true :=
  wordsAux_chars q s [] (by simp) hs

theorem mapped_chars_ok (s : List Char) :
    ∀ c ∈ (s.map asciiLower).map translatePunct, isSpaceChar c = false →
      (!(isSpaceChar c) && ((translatePunct c == c) && (asciiLower c == c))) = true := by
  intro c hc hns
  rcases List.mem_map.mp hc with ⟨c1, hc1, rfl⟩
  rcases List.mem_map.mp hc1 with ⟨c0, _, rfl⟩
  by_cases hp : punctuationChars.contains (asciiLower c0) = true
  · exfalso
    have he : translatePunct (asciiLower c0) = ' ' := by
      unfold translatePunct
      rw [if_pos hp]
    rw [he] at hns
    exact absurd hns (by decide)
  · have he : translatePunct (asciiLower c0) = asciiLower c0 := by
      unfold translatePunct
      rw [if_neg hp]
    rw [he] at hns ⊢
    refine Bool.and_eq_true_iff.mpr ⟨by rw [hns]; rfl, Bool.and_eq_true_iff.mpr ⟨?_, ?_⟩⟩
    · rw [he]
      exact beq_self_eq_true _
    · rw [asciiLower_idem c0]
      exact beq_self_eq_true _

theorem dropWhile_head_false {p : Char → Bool} :
    ∀ (l : List Char) (x : Char) (xs : List Char),
      l.dropWhile p = x :: xs → p x = false := by
  intro l
  induction l with
  | nil =>
    intro x xs h
    simp [List.dropWhile] at h
  | cons y ys ih =>
    intro x xs h
    rw [List.dropWhile_cons] at h
    by_cases hy : p y = true
    · rw [if_pos hy] at h
      exact ih x xs h
    · rw [if_neg hy] at h
      cases h
      exact eq_false_of_ne_true hy

theorem stripLeadingZeroes_subset (w : List Char) :
    ∀ c ∈ stripLeadingZeroes w, c ∈ w := by
  unfold stripLeadingZeroes
  by_cases hc : (!w.isEmpty && w.all isDigitChar) = true
  · rw [if_pos hc]
    exact fun c hc2 => (List.dropWhile_sublist _).subset hc2
  · rw [if_neg hc]
    exact fun c hc2 => hc2

theorem stripLeadingZeroes_idem (w : List Char) (h : stripLeadingZeroes w ≠ []) :
    stripLeadingZeroes (stripLeadingZeroes w) = stripLeadingZeroes w := by
  by_cases hc : (!w.isEmpty && w.all isDigitChar) = true
  · have h1 : stripLeadingZeroes w = w.dropWhile (fun c => c == '0') := by
      unfold stripLeadingZeroes
      rw [if_pos hc]
    rw [h1] at h ⊢
    cases ht : w.dropWhile (fun c => c == '0') with
    | nil => exact absurd ht h
    | cons x xs =>
      have hx : (x == '0') = false := dropWhile_head_false w x xs ht
      have hdig : ((x :: xs).all isDigitChar) = true := by
        have hsub : (w.dropWhile (fun c => c == '0')).Sublist w := List.dropWhile_sublist _
        rw [ht] at hsub
        obtain ⟨_, hall⟩ := Bool.and_eq_true_iff.mp hc
        rw [List.all_eq_true] at hall ⊢
        exact fun c hcm => hall c (hsub.subset hcm)
      have hcond : (!(x :: xs).isEmpty && (x :: xs).all isDigitChar) = true := by
        rw [hdig]
        rfl
      unfold stripLeadingZeroes
      rw [if_pos hcond]
      simp [List.dropWhile_cons, hx]
  · have h1 : stripLeadingZeroes w = w := by
      unfold stripLeadingZeroes
      rw [if_neg hc]
    rw [h1]
    exact h1

theorem wordsAux_nospace : ∀ (t acc : List Char),
    (∀ c ∈ t, isSpaceChar c = false) → (acc = [] → t ≠ []) →
    wordsAux acc t = [acc.reverse ++ t] := by
  intro t
  induction t with
  | nil =>
    intro acc _ hne
    unfold wordsAux
    have hae : ¬acc.isEmpty = true := by
      intro he
      exact (hne (List.isEmpty_iff.mp he)) rfl
    rw [if_neg hae]
    simp
  | cons x xs ih =>
    intro acc hns _
    unfold wordsAux
    have hx : isSpaceChar x = false := hns x (List.mem_cons_self x xs)
    rw [if_neg (by rw [hx]; exact Bool.false_ne_true)]
    rw [ih (x :: acc) (fun c hc => hns c (List.mem_cons_of_mem x hc)) (by simp)]
    simp

theorem words_single (t : List Char) (hne : t ≠ [])
    (hns : ∀ c ∈ t, isSpaceChar c = false) : words t = [t] := by
  unfold words
  rw [wordsAux_nospace t [] hns (fun _ => hne)]
  simp

theorem map_fixed {f : α → α} : ∀ {l : List α}, (∀ c ∈ l, f c = c) → l.map f = l := by
  intro l
  induction l with
  | nil => intro _; rfl
  | cons x xs ih =>
    intro h
    simp only [List.map_cons]
    rw [h x (List.mem_cons_self x xs), ih (fun c hc => h c (List.mem_cons_of_mem x hc))]

theorem strToKeys_fixed (t : List Char) (hne : t ≠ [])
    (hfix : ∀ c ∈ t, isSpaceChar c = false ∧ translatePunct c = c ∧ asciiLower c = c)
    (hstrip : stripLeadingZeroes t = t) : strToKeys t = [t] := by
  unfold strToKeys
  rw [map_fixed (fun c hc => (hfix c hc).2.2)]
  rw [map_fixed (fun c hc => (hfix c hc).2.1)]
  rw [words_single t hne (fun c hc => (hfix c hc).1)]
  simp [hstrip]

theorem flatMap_fixed {f : α → List α} :
    ∀ {l : List α}, (∀ t ∈ l, f t = [t]) → l.flatMap f = l := by
  intro l
  induction l with
  | nil => intro _; rfl
  | cons x xs ih =>
    intro h
    rw [List.flatMap_cons, h x (List.mem_cons_self x xs),
      ih (fun t ht => h t (List.mem_cons_of_mem x ht))]
    rfl

/-! ### Support for the swap-symmetry claim: order infrastructure -/

theorem insertLe_pairwise {le : α → α → Bool}
    (htot : ∀ x y, le x y = true ∨ le y x = true)
    (htrans : ∀ x y z, le x y = true → le y z = true → le x z = true) :
    ∀ (x : α) (l : List α), l.Pairwise (fun a b => le a b = true) →
      (insertLe le x l).Pairwise (fun a b => le a b = true) := by
  intro x l
  induction l with
  | nil =>
    intro _
    simp [insertLe]
  | cons y ys ih =>
    intro hp
    obtain ⟨hy, hp2⟩ := List.pairwise_cons.mp hp
    unfold insertLe
    by_cases hxy : le x y = true
    · rw [if_pos hxy]
      refine List.pairwise_cons.mpr ⟨?_, hp⟩
      intro z hz
      rcases List.mem_cons.mp hz with rfl | hz2
      · exact hxy
      · exact htrans x y z hxy (hy z hz2)
    · rw [if_neg hxy]
      refine List.pairwise_cons.mpr ⟨?_, ih hp2⟩
      intro z hz
      have hz2 := (insertLe_perm le x ys).mem_iff.mp hz
      rcases List.mem_cons.mp hz2 with rfl | hz3
      · rcases htot z y with h | h
        · exact absurd h hxy
        · exact h
      · exact hy z hz3

theorem sortLe_pairwise {le : α → α → Bool}
    (htot : ∀ x y, le x y = true ∨ le y x = true)
    (htrans : ∀ x y z, le x y = true → le y z = true → le x z = true)
    (l : List α) : (sortLe le l).Pairwise (fun a b => le a b = true) := by
  induction l with
  | nil => simp [sortLe]
  | cons x xs ih => exact insertLe_pairwise htot htrans x _ ih

theorem subset_dedupAdj [DecidableEq α] :
    ∀ {l : List α} {x : α}, x ∈ l → x ∈ dedupAdj l := by
  intro l
  induction l with
  | nil =>
    intro x h
    exact absurd h (List.not_mem_nil x)
  | cons y t ih =>
    cases t with
    | nil =>
      intro x h
      simpa [dedupAdj] using h
    | cons z t2 =>
      intro x hx
      by_cases hyz : y = z
      · unfold dedupAdj
        rw [if_pos hyz]
        rcases List.mem_cons.mp hx with rfl | hx2
        · exact ih (hyz ▸ List.mem_cons_self _ _)
        · exact ih hx2
      · unfold dedupAdj
        rw [if_neg hyz]
        rcases List.mem_cons.mp hx with rfl | hx2
        · exact List.mem_cons_self _ _
        · exact List.mem_cons_of_mem _ (ih hx2)

theorem mem_dedupAdj_iff [DecidableEq α] {l : List α} {x : α} :
    x ∈ dedupAdj l ↔ x ∈ l := ⟨mem_dedupAdj, subset_dedupAdj⟩

theorem dedupAdj_nodup_of_sorted {le : α → α → Bool} [DecidableEq α]
    (hanti : ∀ x y, le x y = true → le y x = true → x = y) :
    ∀ {l : List α}, l.Pairwise (fun a b => le a b = true) → (dedupAdj l).Nodup := by
  intro l
  induction l with
  | nil =>
    intro _
    simp [dedupAdj]
  | cons y t ih =>
    cases t with
    | nil =>
      intro _
      simp [dedupAdj]
    | cons z t2 =>
      intro hp
      obtain ⟨hy, hp2⟩ := List.pairwise_cons.mp hp
      by_cases hyz : y = z
      · unfold dedupAdj
        rw [if_pos hyz]
        exact ih hp2
      · unfold dedupAdj
        rw [if_neg hyz]
        refine List.nodup_cons.mpr ⟨?_, ih hp2⟩
        intro hmem
        have h2 : y ∈ z :: t2 := mem_dedupAdj hmem
        rcases List.mem_cons.mp h2 with h3 | h3
        · exact hyz h3
        · obtain ⟨hz, _⟩ := List.pairwise_cons.mp hp2
          exact hyz (hanti y z (hy z (List.mem_cons_self _ _)) (hz y h3))

theorem sorted_nodup_eq {le : α → α → Bool}
    (hanti : ∀ x y, le x y = true → le y x = true → x = y) :
    ∀ {l₁ l₂ : List α}, l₁.Pairwise (fun a b => le a b = true) →
      l₂.Pairwise (fun a b => le a b = true) → l₁.Nodup → l₂.Nodup →
      (∀ x, x ∈ l₁ ↔ x ∈ l₂) → l₁ = l₂ := by
  intro l₁
  induction l₁ with
  | nil =>
    intro l₂ _ _ _ _ hm
    cases l₂ with
    | nil => rfl
    | cons y t₂ => exact absurd ((hm y).mpr (List.mem_cons_self _ _)) (List.not_mem_nil y)
  | cons x t₁ ih =>
    intro l₂ hp₁ hp₂ hn₁ hn₂ hm
    cases l₂ with
    | nil => exact absurd ((hm x).mp (List.mem_cons_self _ _)) (List.not_mem_nil x)
    | cons y t₂ =>
      obtain ⟨hx1, hp₁2⟩ := List.pairwise_cons.mp hp₁
      obtain ⟨hy2, hp₂2⟩ := List.pairwise_cons.mp hp₂
      obtain ⟨hxn, hn₁2⟩ := List.nodup_cons.mp hn₁
      obtain ⟨hyn, hn₂2⟩ := List.nodup_cons.mp hn₂
      have hxy : x = y := by
        rcases List.mem_cons.mp ((hm x).mp (List.mem_cons_self _ _)) with h | h
        · exact h
        · rcases List.mem_cons.mp ((hm y).mpr (List.mem_cons_self _ _)) with h2 | h2
          · exact h2.symm
          · exact hanti x y (hx1 y h2) (hy2 x h)
      subst hxy
      have hmt : ∀ z, z ∈ t₁ ↔ z ∈ t₂ := by
        intro z
        constructor
        · intro hz
          rcases List.mem_cons.mp ((hm z).mp (List.mem_cons_of_mem x hz)) with rfl | h2
          · exact absurd hz hxn
          · exact h2
        · intro hz
          rcases List.mem_cons.mp ((hm z).mpr (List.mem_cons_of_mem x hz)) with rfl | h2
          · exact absurd hz hyn
          · exact h2
      rw [ih hp₁2 hp₂2 hn₁2 hn₂2 hmt]

theorem pairLeB_total (p q : ℕ × ℕ) : pairLeB p q = true ∨ pairLeB q p = true := by
  obtain ⟨p1, p2⟩ := p
  obtain ⟨q1, q2⟩ := q
  unfold pairLeB
  simp only [Bool.or_eq_true, Bool.and_eq_true, decide_eq_true_eq, beq_iff_eq]
  omega

theorem pairLeB_trans (p q r : ℕ × ℕ) :
    pairLeB p q = true → pairLeB q r = true → pairLeB p r = true := by
  obtain ⟨p1, p2⟩ := p
  obtain ⟨q1, q2⟩ := q
  obtain ⟨r1, r2⟩ := r
  unfold pairLeB
  simp only [Bool.or_eq_true, Bool.and_eq_true, decide_eq_true_eq, beq_iff_eq]
  omega

theorem pairLeB_antisymm (p q : ℕ × ℕ) :
    pairLeB p q = true → pairLeB q p = true → p = q := by
  obtain ⟨p1, p2⟩ := p
  obtain ⟨q1, q2⟩ := q
  unfold pairLeB
  simp only [Bool.or_eq_true, Bool.and_eq_true, decide_eq_true_eq, beq_iff_eq,
    Prod.mk.injEq]
  omega

theorem strLeB_total (x y : Key) : decide (x ≤ y) = true ∨ decide (y ≤ x) = true := by
  rcases le_total x y with h | h
  · exact Or.inl (decide_eq_true h)
  · exact Or.inr (decide_eq_true h)

theorem strLeB_trans (x y z : Key) : decide (x ≤ y) = true → decide (y ≤ z) = true →
    decide (x ≤ z) = true := fun h1 h2 =>
  decide_eq_true (le_trans (of_decide_eq_true h1) (of_decide_eq_true h2))

theorem strLeB_antisymm (x y : Key) : decide (x ≤ y) = true → decide (y ≤ x) = true →
    x = y := fun h1 h2 => le_antisymm (of_decide_eq_true h1) (of_decide_eq_true h2)

theorem contains_iff_mem [DecidableEq α] {l : List α} {x : α} :
    l.contains x = true ↔ x ∈ l := by
  simp

theorem filterMap_congr_mem {β : Type v} {f g : α → Option β} :
    ∀ {l : List α}, (∀ a ∈ l, f a = g a) → l.filterMap f = l.filterMap g := by
  intro l
  induction l with
  | nil => intro _; rfl
  | cons x xs ih =>
    intro h
    rw [List.filterMap_cons, List.filterMap_cons, h x (List.mem_cons_self _ _),
      ih (fun a ha => h a (List.mem_cons_of_mem x ha))]

theorem mem_allIndexesFor {a b : Dataset} {strA strB : Streamlined} {p : ℕ × ℕ} :
    p ∈ allIndexesFor a b strA strB ↔
      ∃ k, k ∈ strA.all_exact_keys ∧ k ∈ strB.all_exact_keys ∧
        p.1 ∈ roundZeroIdx a k ∧ p.2 ∈ roundZeroIdx b k := by
  unfold allIndexesFor
  rw [mem_dedupAdj_iff, mem_sortLe]
  constructor
  · intro h
    rcases List.mem_flatMap.mp h with ⟨k, hk, hpk⟩
    obtain ⟨hk1, hk2⟩ := List.mem_filter.mp hk
    rcases List.mem_flatMap.mp hpk with ⟨ia, hia, hpia⟩
    rcases List.mem_map.mp hpia with ⟨ib, hib, rfl⟩
    exact ⟨k, hk1, contains_iff_mem.mp hk2, hia, hib⟩
  · intro hex
    obtain ⟨k, hk1, hk2, h1, h2⟩ := hex
    refine List.mem_flatMap.mpr ⟨k, List.mem_filter.mpr ⟨hk1, contains_iff_mem.mpr hk2⟩, ?_⟩
    refine List.mem_flatMap.mpr ⟨p.1, h1, ?_⟩
    exact List.mem_map.mpr ⟨p.2, h2, Prod.mk.eta⟩

theorem allIndexesFor_nodup (a b : Dataset) (strA strB : Streamlined) :
    (allIndexesFor a b strA strB).Nodup := by
  unfold allIndexesFor
  exact dedupAdj_nodup_of_sorted pairLeB_antisymm
    (sortLe_pairwise pairLeB_total pairLeB_trans _)

theorem allIndexesFor_swap_perm (a b : Dataset) (strA strB : Streamlined) :
    (allIndexesFor b a strB strA).Perm
      ((allIndexesFor a b strA strB).map Prod.swap) := by
  apply List.perm_of_nodup_nodup_toFinset_eq
  · exact allIndexesFor_nodup b a strB strA
  · exact (allIndexesFor_nodup a b strA strB).map Prod.swap_injective
  · ext p
    simp only [List.mem_toFinset, List.mem_map]
    constructor
    · intro h
      obtain ⟨k, h1, h2, h3, h4⟩ := mem_allIndexesFor.mp h
      exact ⟨p.swap, mem_allIndexesFor.mpr ⟨k, h2, h1, h4, h3⟩, Prod.swap_swap p⟩
    · intro h
      obtain ⟨q, hq, rfl⟩ := h
      obtain ⟨k, h1, h2, h3, h4⟩ := mem_allIndexesFor.mp hq
      exact mem_allIndexesFor.mpr ⟨k, h2, h1, h4, h3⟩

theorem keyScore_comm (rf : ℚ) (ra rb : List (Key × ℚ × ℕ)) (k : Key) :
    keyScore rf rb ra k = keyScore rf ra rb k := by
  unfold keyScore
  cases assocFind ra k with
  | none => cases assocFind rb k <;> rfl
  | some wa =>
    cases assocFind rb k with
    | none => rfl
    | some wb =>
      dsimp only
      rw [mul_comm wb.1 wa.1, mul_comm ((wb.2 : ℚ)) ((wa.2 : ℚ))]

theorem exactPairLoop_comm (krpf : ℚ) :
    ∀ (i : ℕ) (ras rbs : List (List (Key × ℚ × ℕ))),
    (∀ r ∈ ras, (r.map Prod.fst).Nodup) → (∀ r ∈ rbs, (r.map Prod.fst).Nodup) →
    exactPairLoop krpf i rbs ras = exactPairLoop krpf i ras rbs := by
  intro i ras
  induction ras generalizing i with
  | nil =>
    intro rbs _ _
    cases rbs with
    | nil => rfl
    | cons rb rbs2 => rfl
  | cons ra ras2 ih =>
    intro rbs hras hrbs
    cases rbs with
    | nil => rfl
    | cons rb rbs2 =>
      have hnra : (ra.map Prod.fst).Nodup := hras ra (List.mem_cons_self _ _)
      have hnrb : (rb.map Prod.fst).Nodup := hrbs rb (List.mem_cons_self _ _)
      have hkeys : sortLe (fun x y : Key => decide (x ≤ y))
            ((rb.map (fun p => p.1)).filter (fun k => (ra.map (fun p => p.1)).contains k)) =
          sortLe (fun x y : Key => decide (x ≤ y))
            ((ra.map (fun p => p.1)).filter (fun k => (rb.map (fun p => p.1)).contains k)) := by
        apply sorted_nodup_eq strLeB_antisymm
          (sortLe_pairwise strLeB_total strLeB_trans _)
          (sortLe_pairwise strLeB_total strLeB_trans _)
        · exact (sortLe_perm _ _).nodup_iff.mpr (hnrb.filter _)
        · exact (sortLe_perm _ _).nodup_iff.mpr (hnra.filter _)
        · intro x
          rw [mem_sortLe, mem_sortLe, List.mem_filter, List.mem_filter]
          constructor
          · intro h
            exact ⟨contains_iff_mem.mp h.2, contains_iff_mem.mpr h.1⟩
          · intro h
            exact ⟨contains_iff_mem.mp h.2, contains_iff_mem.mpr h.1⟩
      simp only [exactPairLoop]
      rw [hkeys]
      rw [filterMap_congr_mem (fun k _ => keyScore_comm (krpf ^ (i * 2)) ra rb k)]
      rw [ih (i + 1) rbs2 (fun r hr => hras r (List.mem_cons_of_mem ra hr))
        (fun r hr => hrbs r (List.mem_cons_of_mem rb hr))]

theorem map_congr_mem {β : Type v} {f g : α → β} :
    ∀ {l : List α}, (∀ a ∈ l, f a = g a) → l.map f = l.map g := by
  intro l
  induction l with
  | nil => intro _; rfl
  | cons x xs ih =>
    intro h
    rw [List.map_cons, List.map_cons, h x (List.mem_cons_self _ _),
      ih (fun a ha => h a (List.mem_cons_of_mem x ha))]

theorem filterMap_fst_sublist {w : Type v} {f : (Key × List ℚ) → Option (Key × w)}
    (hf : ∀ p q, f p = some q → q.1 = p.1) (keymap : List (Key × List ℚ)) :
    ((keymap.filterMap f).map (fun p => p.1)).Sublist
      (keymap.map (fun p => p.1)) := by
  induction keymap with
  | nil => simp
  | cons p rest ih =>
    rw [List.filterMap_cons]
    cases hfp : f p with
    | none =>
      simp only [List.map_cons]
      exact ih.cons _
    | some q =>
      simp only [List.map_cons]
      rw [hf p q hfp]
      exact List.Sublist.cons₂ _ ih

theorem exactRoundsFor_keys_nodup {other : Dataset} {keymap : List (Key × List ℚ)}
    (h : (keymap.map (fun p => p.1)).Nodup) :
    ∀ r ∈ exactRoundsFor other keymap, (r.map (fun p => p.1)).Nodup := by
  intro r hr
  unfold exactRoundsFor at hr
  rcases List.mem_map.mp hr with ⟨n, _, rfl⟩
  refine List.Nodup.sublist (filterMap_fst_sublist ?_ keymap) h
  intro p q hpq
  cases hn : p.2[n]? with
  | none =>
    rw [hn] at hpq
    exact absurd hpq (by simp)
  | some wv =>
    rw [hn] at hpq
    simp only [Option.some.injEq] at hpq
    rw [← hpq]

theorem exactRounds_keys_nodup {d other : Dataset} (hk : d.keymapsNodup = true)
    (idx : ℕ) : ∀ r ∈ (d.precompute other).exact_rounds.getD idx [],
      (r.map (fun p => p.1)).Nodup := by
  intro r hr
  unfold Dataset.precompute at hr
  dsimp only at hr
  by_cases hlt : idx < (d.index_to_key.map
      (fun keymap => exactRoundsFor other keymap)).length
  · rw [List.getD_eq_getElem _ _ hlt] at hr
    rw [List.getElem_map] at hr
    have hbound : idx < d.index_to_key.length := by simpa using hlt
    have hmem : d.index_to_key[idx] ∈ d.index_to_key := List.getElem_mem _
    unfold Dataset.keymapsNodup at hk
    rw [List.all_eq_true] at hk
    have hnd := of_decide_eq_true (hk _ hmem)
    exact exactRoundsFor_keys_nodup hnd r hr
  · rw [List.getD_eq_default _ _ (le_of_not_lt hlt)] at hr
    exact absurd hr (List.not_mem_nil r)

theorem scoredPairs_swap_perm (A B : Dataset) (args args' : CorrelateArgs)
    (h1 : args'.score_ratio_bonus = args.score_ratio_bonus)
    (h2 : args'.key_reuse_penalty_factor = args.key_reuse_penalty_factor)
    (hkA : A.keymapsNodup = true) (hkB : B.keymapsNodup = true) :
    (scoredPairs (Correlator.mk B A) args').Perm
      ((scoredPairs (Correlator.mk A B) args).map (fun t => (t.1.swap, t.2))) := by
  unfold scoredPairs
  dsimp only
  rw [List.map_map, List.map_map, List.map_map]
  refine ((allIndexesFor_swap_perm A B (A.precompute B) (B.precompute A)).map _).trans ?_
  rw [List.map_map]
  apply List.Perm.of_eq
  apply map_congr_mem
  intro q _
  have hcomm : exactPairLoop args.key_reuse_penalty_factor 0
      ((B.precompute A).exact_rounds.getD q.2 [])
      ((A.precompute B).exact_rounds.getD q.1 []) =
    exactPairLoop args.key_reuse_penalty_factor 0
      ((A.precompute B).exact_rounds.getD q.1 [])
      ((B.precompute A).exact_rounds.getD q.2 []) :=
    exactPairLoop_comm args.key_reuse_penalty_factor 0 _ _
      (exactRounds_keys_nodup hkA q.1) (exactRounds_keys_nodup hkB q.2)
  dsimp only [Function.comp]
  simp only [Prod.fst_swap, Prod.snd_swap]
  rw [h1, h2, hcomm]
  rw [add_comm ((B.precompute A).total_keys.getD q.2 0 : ℚ)
    ((A.precompute B).total_keys.getD q.1 0 : ℚ)]

theorem scoreLeB_total (x y : CorrelatorMatch ℕ) :
    decide (x.score ≤ y.score) = true ∨ decide (y.score ≤ x.score) = true := by
  rcases le_total x.score y.score with h | h
  · exact Or.inl (decide_eq_true h)
  · exact Or.inr (decide_eq_true h)

theorem scoreLeB_trans (x y z : CorrelatorMatch ℕ) :
    decide (x.score ≤ y.score) = true → decide (y.score ≤ z.score) = true →
    decide (x.score ≤ z.score) = true := fun h1 h2 =>
  decide_eq_true (le_trans (of_decide_eq_true h1) (of_decide_eq_true h2))

theorem perm_sorted_strict_eq :
    ∀ {l₁ l₂ : List (CorrelatorMatch ℕ)}, l₁.Perm l₂ →
      l₁.Pairwise (fun x y => x.score < y.score) →
      l₂.Pairwise (fun x y => x.score < y.score) → l₁ = l₂ := by
  intro l₁
  induction l₁ with
  | nil =>
    intro l₂ hp _ _
    exact (hp.symm.eq_nil).symm
  | cons x t₁ ih =>
    intro l₂ hp h₁ h₂
    cases l₂ with
    | nil => exact absurd hp.eq_nil (by simp)
    | cons y t₂ =>
      obtain ⟨hx1, h₁2⟩ := List.pairwise_cons.mp h₁
      obtain ⟨hy2, h₂2⟩ := List.pairwise_cons.mp h₂
      have hxy : x = y := by
        rcases List.mem_cons.mp (hp.subset (List.mem_cons_self _ _)) with h | h
        · exact h
        · rcases List.mem_cons.mp (hp.symm.subset (List.mem_cons_self _ _)) with h2 | h2
          · exact h2.symm
          · exact absurd (lt_trans (hx1 y h2) (hy2 x h)) (lt_irrefl _)
      subst hxy
      rw [ih hp.cons_inv h₁2 h₂2]

theorem matchBoiler_swap [DecidableEq α] (ra rb : Bool) (ms : List (CorrelatorMatch α)) :
    matchBoiler rb ra (ms.map cmSwap) =
      ((matchBoiler ra rb ms).1.map cmSwap,
       (matchBoiler ra rb ms).2.2.1,
       (matchBoiler ra rb ms).2.1,
       (matchBoiler ra rb ms).2.2.2.map cmSwap) := by
  unfold matchBoiler
  rw [List.length_map, ← List.map_reverse, boilFuel_swap]
  dsimp only
  rw [List.map_reverse]

theorem usingRankings_swap (A B : Dataset) (args : CorrelateArgs) :
    usingRankings (Correlator.mk B A) (swapReuse args) =
      usingRankings (Correlator.mk A B) args := by
  unfold usingRankings swapReuse
  dsimp only
  rw [Bool.and_assoc, Bool.and_assoc,
    Bool.and_comm (decide (1 < B.rankings_count)) (decide (1 < A.rankings_count))]

theorem adjustScore_swap (A B : Dataset) (args : CorrelateArgs) (isAbs : Bool)
    (t : (ℕ × ℕ) × ℚ) :
    adjustScore (Correlator.mk B A) (swapReuse args) isAbs (t.1.swap, t.2) =
      adjustScore (Correlator.mk A B) args isAbs t := by
  unfold adjustScore swapReuse
  dsimp only
  simp only [Prod.fst_swap, Prod.snd_swap]
  cases A.rankingOf t.1.1 with
  | none => cases B.rankingOf t.1.2 with
    | none => rfl
    | some rb => rfl
  | some ra =>
    cases B.rankingOf t.1.2 with
    | none => rfl
    | some rb =>
      dsimp only
      rw [max_comm B.rankingRange A.rankingRange,
        abs_sub_comm (rb / B.rankingRange) (ra / A.rankingRange),
        abs_sub_comm rb ra]

theorem truncAtMin_map_swap (m : ℚ) : ∀ (l : List (CorrelatorMatch ℕ)),
    truncAtMin m (l.map cmSwap) =
      ((truncAtMin m l).1, (truncAtMin m l).2.map cmSwap) := by
  intro l
  induction l with
  | nil => rfl
  | cons it rest ih =>
    simp only [List.map_cons, truncAtMin, cmSwap_score]
    by_cases h : it.score ≤ m
    · rw [if_pos h, if_pos h]
      rfl
    · rw [if_neg h, if_neg h, ih]
      rfl

theorem isEmpty_map {β : Type v} (f : α → β) (l : List α) :
    (l.map f).isEmpty = l.isEmpty := by
  cases l <;> rfl

theorem channelOutcome_swap (args : CorrelateArgs) (ch' ch : List (CorrelatorMatch ℕ))
    (hperm : ch'.Perm (ch.map cmSwap))
    (hdist : ch.Pairwise (fun x y => x.score ≠ y.score)) :
    channelOutcome (swapReuse args) ch' =
      Option.map outcomeSwap (channelOutcome args ch) := by
  have hle := sortLe_pairwise scoreLeB_total scoreLeB_trans ch
  have hd1 : (sortLe (fun x y : CorrelatorMatch ℕ => decide (x.score ≤ y.score))
      ch).Pairwise (fun x y => x.score ≠ y.score) :=
    ((sortLe_perm _ ch).pairwise_iff (fun h => h.symm)).mpr hdist
  have hstrict : (sortLe (fun x y : CorrelatorMatch ℕ => decide (x.score ≤ y.score))
      ch).Pairwise (fun x y => x.score < y.score) :=
    (hle.and hd1).imp (fun h => lt_of_le_of_ne (of_decide_eq_true h.1) h.2)
  have hle' := sortLe_pairwise scoreLeB_total scoreLeB_trans ch'
  have hdm : (ch.map cmSwap).Pairwise (fun x y => x.score ≠ y.score) :=
    List.pairwise_map.mpr hdist
  have hd' : ch'.Pairwise (fun x y => x.score ≠ y.score) :=
    (hperm.pairwise_iff (fun h => h.symm)).mpr hdm
  have hd1' : (sortLe (fun x y : CorrelatorMatch ℕ => decide (x.score ≤ y.score))
      ch').Pairwise (fun x y => x.score ≠ y.score) :=
    ((sortLe_perm _ ch').pairwise_iff (fun h => h.symm)).mpr hd'
  have hstrict' : (sortLe (fun x y : CorrelatorMatch ℕ => decide (x.score ≤ y.score))
      ch').Pairwise (fun x y => x.score < y.score) :=
    (hle'.and hd1').imp (fun h => lt_of_le_of_ne (of_decide_eq_true h.1) h.2)
  have hstrictm : ((sortLe (fun x y : CorrelatorMatch ℕ => decide (x.score ≤ y.score))
      ch).map cmSwap).Pairwise (fun x y => x.score < y.score) :=
    List.pairwise_map.mpr hstrict
  have hpermS : (sortLe (fun x y : CorrelatorMatch ℕ => decide (x.score ≤ y.score))
        ch').Perm
      ((sortLe (fun x y : CorrelatorMatch ℕ => decide (x.score ≤ y.score)) ch).map
        cmSwap) :=
    (sortLe_perm _ ch').trans (hperm.trans ((sortLe_perm _ ch).map cmSwap).symm)
  have hsorted := perm_sorted_strict_eq hpermS hstrict' hstrictm
  unfold channelOutcome
  have hra : (swapReuse args).reuse_a = args.reuse_b := rfl
  have hrb : (swapReuse args).reuse_b = args.reuse_a := rfl
  have hm : (swapReuse args).minimum_score = args.minimum_score := rfl
  rw [hsorted, hra, hrb, hm]
  dsimp only
  rw [matchBoiler_swap]
  dsimp only
  rw [truncAtMin_map_swap]
  dsimp only
  rw [isEmpty_map]
  by_cases ht : ((truncAtMin args.minimum_score (matchBoiler args.reuse_a args.reuse_b
      (sortLe (fun x y : CorrelatorMatch ℕ => decide (x.score ≤ y.score)) ch)).1).2).isEmpty = true
  · rw [if_pos ht, if_pos ht]
    rfl
  · rw [if_neg ht, if_neg ht]
    rfl

theorem forall₂_append_parts {β : Type v} {R : α → β → Prop}
    {a c : List α} {b d : List β} (h1 : List.Forall₂ R a b)
    (h2 : List.Forall₂ R c d) : List.Forall₂ R (a ++ c) (b ++ d) := by
  induction h1 with
  | nil => simpa using h2
  | cons hr _ ih => exact List.Forall₂.cons hr ih

theorem filterMap_outcomeSwap {g' g : List (CorrelatorMatch ℕ) → Option ChannelOutcome} :
    ∀ {l' l : List (List (CorrelatorMatch ℕ))},
      List.Forall₂ (fun ch' ch => g' ch' = Option.map outcomeSwap (g ch)) l' l →
      l'.filterMap g' = (l.filterMap g).map outcomeSwap := by
  intro l' l h
  induction h with
  | nil => rfl
  | cons hfc _ ih =>
    rename_i a' a l2' l2 _
    rw [List.filterMap_cons, List.filterMap_cons, hfc]
    cases hfa : g a with
    | none => exact ih
    | some o =>
      show outcomeSwap o :: List.filterMap g' l2' =
        List.map outcomeSwap (o :: List.filterMap g l2)
      rw [List.map_cons, ih]

theorem channelPerm_swap (A B : Dataset) (args : CorrelateArgs)
    (hkA : A.keymapsNodup = true) (hkB : B.keymapsNodup = true)
    (g' g : ((ℕ × ℕ) × ℚ) → CorrelatorMatch ℕ)
    (hpt : ∀ t, g' (t.1.swap, t.2) = cmSwap (g t)) :
    ((scoredPairs (Correlator.mk B A) (swapReuse args)).map g').Perm
      (((scoredPairs (Correlator.mk A B) args).map g).map cmSwap) := by
  refine ((scoredPairs_swap_perm A B args (swapReuse args) rfl rfl hkA hkB).map g').trans ?_
  rw [List.map_map, List.map_map]
  apply List.Perm.of_eq
  apply map_congr_mem
  intro t _
  exact hpt t

theorem outcomesOf_swap (A B : Dataset) (args : CorrelateArgs)
    (hkA : A.keymapsNodup = true) (hkB : B.keymapsNodup = true)
    (hdist : ∀ ch ∈ channelsOf (Correlator.mk A B) args,
      ch.Pairwise (fun x y => x.score ≠ y.score)) :
    outcomesOf (Correlator.mk B A) (swapReuse args) =
      (outcomesOf (Correlator.mk A B) args).map outcomeSwap := by
  unfold outcomesOf
  apply filterMap_outcomeSwap
  unfold channelsOf
  dsimp only
  rw [usingRankings_swap]
  have hrk : (swapReuse args).ranking = args.ranking := rfl
  rw [hrk]
  by_cases hur : usingRankings (Correlator.mk A B) args = true
  · rw [if_pos hur, if_pos hur]
    refine forall₂_append_parts ?_ ?_
    · by_cases h1 : args.ranking = RankingApproach.AbsoluteRanking ∨
          args.ranking = RankingApproach.BestRanking
      · rw [if_pos h1, if_pos h1]
        refine List.Forall₂.cons ?_ List.Forall₂.nil
        refine channelOutcome_swap args _ _
          (channelPerm_swap A B args hkA hkB _ _ ?_) (hdist _ ?_)
        · intro t
          rw [show adjustScore (Correlator.mk B A) (swapReuse args) true (t.1.swap, t.2) =
              adjustScore (Correlator.mk A B) args true t from adjustScore_swap A B args true t]
          rfl
        · unfold channelsOf
          dsimp only
          rw [if_pos hur, if_pos h1]
          exact List.mem_append_left _ (List.mem_cons_self _ _)
      · rw [if_neg h1, if_neg h1]
        exact List.Forall₂.nil
    · by_cases h2 : args.ranking = RankingApproach.RelativeRanking ∨
          args.ranking = RankingApproach.BestRanking
      · rw [if_pos h2, if_pos h2]
        refine List.Forall₂.cons ?_ List.Forall₂.nil
        refine channelOutcome_swap args _ _
          (channelPerm_swap A B args hkA hkB _ _ ?_) (hdist _ ?_)
        · intro t
          rw [show adjustScore (Correlator.mk B A) (swapReuse args) false (t.1.swap, t.2) =
              adjustScore (Correlator.mk A B) args false t from adjustScore_swap A B args false t]
          rfl
        · unfold channelsOf
          dsimp only
          rw [if_pos hur, if_pos h2]
          exact List.mem_append_right _ (List.mem_cons_self _ _)
      · rw [if_neg h2, if_neg h2]
        exact List.Forall₂.nil
  · rw [if_neg hur, if_neg hur]
    refine List.Forall₂.cons ?_ List.Forall₂.nil
    refine channelOutcome_swap args _ _
      (channelPerm_swap A B args hkA hkB _ _ ?_) (hdist _ ?_)
    · intro t
      rfl
    · unfold channelsOf
      dsimp only
      rw [if_neg hur]
      exact List.mem_cons_self _ _

theorem pickLastMax_map_swap : ∀ (l : List ChannelOutcome),
    pickLastMax (l.map outcomeSwap) = Option.map outcomeSwap (pickLastMax l) := by
  intro l
  induction l with
  | nil => rfl
  | cons c cs ih =>
    simp only [List.map_cons, pickLastMax]
    rw [ih]
    cases pickLastMax cs with
    | none => rfl
    | some d =>
      dsimp only [Option.map]
      by_cases h : d.cumulative ≥ c.cumulative
      · have h2 : (outcomeSwap d).cumulative ≥ (outcomeSwap c).cumulative := h
        rw [if_pos h2, if_pos h]
      · have h2 : ¬((outcomeSwap d).cumulative ≥ (outcomeSwap c).cumulative) := h
        rw [if_neg h2, if_neg h]

theorem resultOf_swap (A B : Dataset) (args : CorrelateArgs)
    (hkA : A.keymapsNodup = true) (hkB : B.keymapsNodup = true)
    (hdist : ∀ ch ∈ channelsOf (Correlator.mk A B) args,
      ch.Pairwise (fun x y => x.score ≠ y.score)) :
    resultOf (Correlator.mk B A) (swapReuse args) =
      resultSwap (resultOf (Correlator.mk A B) args) := by
  unfold resultOf chosenOf
  rw [outcomesOf_swap A B args hkA hkB hdist, pickLastMax_map_swap]
  cases pickLastMax (outcomesOf (Correlator.mk A B) args) with
  | none => rfl
  | some o =>
    dsimp only [Option.map]
    unfold resultSwap
    dsimp only
    have hL : (o.kept.map cmSwap).map (fun m =>
        (⟨B.values.getD m.value_a "", A.values.getD m.value_b "", m.score⟩ :
          CorrelatorMatch Value)) =
        (o.kept.map (fun m =>
          (⟨A.values.getD m.value_a "", B.values.getD m.value_b "", m.score⟩ :
            CorrelatorMatch Value))).map cmSwap := by
      rw [List.map_map, List.map_map]
      exact map_congr_mem (fun x _ => rfl)
    exact congrArg₂ (fun u v => CorrelatorResult.mk u v (unmatchedOf A.values o.seen_a)
      args.minimum_score) hL rfl

/-! ### Claim theorems -/

/-- C6: the claim states that during dataset setup the only failure mode is
a non-numeric ranking passed to `Dataset.value`, and that `Dataset.value`
with its default `ranking=None` succeeds.  The code contradicts this: after
storing the ranking it evaluates `min(self._lowest_ranking, ranking)`, and
`min(inf, None)` raises `TypeError` in Python 3, so every call with the
default `None` ranking raises.  This theorem evaluates the embedded code:
`value` with `none` always fails with the `TypeError`, while every call
with a numeric ranking succeeds. -/
theorem claim_C6_code_evaluation :
    (∀ (d : Dataset) (v : Value), d.value v none = Except.error PyError.typeError) ∧
    (∀ (d : Dataset) (v : Value) (r : ℚ),
      ∃ d2, d.value v (some r) = Except.ok d2) := by
  constructor
  · intro d v
    rfl
  · intro d v r
    exact ⟨_, rfl⟩

/-- C9: the claim states that `MatchBoiler._assert_in_ascending_sorted_order`
fails exactly on lists that are not ascending by score.  The code never
updates `previous_score` inside its loop, so the check compares every score
against negative infinity and always passes: the embedded check returns
`true` on every list, in particular on the descending list
`[score 1, score 0]`, which is not ascending-sorted. -/
theorem claim_C9_code_evaluation :
    (∀ (α : Type) (ms : List (CorrelatorMatch α)),
      assertInAscendingSortedOrder ms = true) ∧
    ¬ (([(⟨0, 0, 1⟩ : CorrelatorMatch ℕ), ⟨1, 1, 0⟩]).Pairwise
        (fun x y => x.score ≤ y.score)) := by
  constructor
  · intro α ms
    unfold assertInAscendingSortedOrder
    have h : ∀ (l : List (CorrelatorMatch α)) (b : Bool),
        (l.foldl (fun (st : Bool × Option ℚ) it =>
          (st.1 && (match st.2 with
            | none => true
            | some prev => decide (prev ≤ it.score)),
           st.2)) (b, none)) = (b, none) := by
      intro l
      induction l with
      | nil => intro b; rfl
      | cons it rest ih =>
        intro b
        have h3 : List.foldl (fun (st : Bool × Option ℚ) it =>
            (st.1 && (match st.2 with
              | none => true
              | some prev => decide (prev ≤ it.score)),
             st.2)) (b, none) (it :: rest) = (b && true, none) := ih (b && true)
        rw [h3, Bool.and_true]
    rw [h ms true]
  · decide

/-- C10: calling a `MatchBoiler` mutates the matches list it was given.
The embedding returns the final content of that list: it is always a
proper prefix of the (ascending) input once the input is nonempty — the
processed top part has been popped off — and it is empty whenever both
reuse flags are true. -/
theorem claim_C10_mutates_matches :
    ∀ (α : Type) (_inst : DecidableEq α) (ra rb : Bool)
      (ms : List (CorrelatorMatch α)),
    ((matchBoiler ra rb ms).2.2.2 <+: ms) ∧
    (ms ≠ [] → (matchBoiler ra rb ms).2.2.2.length < ms.length) ∧
    (ra = true → rb = true → (matchBoiler ra rb ms).2.2.2 = []) := by
  intro α _inst ra rb ms
  refine ⟨?_, ?_, ?_⟩
  · have h2 : (boilFuel ms.length ra rb [] [] ms.reverse).2.2.2 <:+ ms.reverse :=
      boilFuel_rest_suffix ms.length ra rb [] [] ms.reverse
    have h3 := List.reverse_prefix.mpr h2
    rw [List.reverse_reverse] at h3
    exact h3
  · intro hne
    cases hrev : ms.reverse with
    | nil =>
      have h2 : ms = [] := by
        have h3 := congrArg List.reverse hrev
        rw [List.reverse_reverse] at h3
        simpa using h3
      exact absurd h2 hne
    | cons top rest2 =>
      have hlen : ms.length = rest2.length + 1 := by
        have h3 : ms.reverse.length = ms.length := List.length_reverse ms
        rw [hrev] at h3
        simpa using h3.symm
      have h4 := boilFuel_rest_lt rest2.length ra rb [] [] top rest2
      show ((boilFuel ms.length ra rb [] [] ms.reverse).2.2.2.reverse).length < ms.length
      rw [List.length_reverse, hrev, hlen]
      exact h4
  · intro hra hrb
    subst hra; subst hrb
    cases hms : ms with
    | nil => rfl
    | cons x t =>
      show ((boilFuel (x :: t).length true true [] [] (x :: t).reverse).2.2.2.reverse) = []
      have hlen : (x :: t).length = t.length + 1 := rfl
      rw [hlen, boilFuel_reuse]
      rfl

/-- C10, witnessed at a concrete input: a two-item list with both reuse
flags on is fully drained. -/
theorem claim_C10_witness :
    ((matchBoiler true true ([⟨0, 0, 1⟩, ⟨1, 1, 2⟩] : List (CorrelatorMatch ℕ))).2.2.2
      = []) ∧
    ((matchBoiler true true ([⟨0, 0, 1⟩, ⟨1, 1, 2⟩] : List (CorrelatorMatch ℕ))).2.2.2.length
      < 2) := by
  refine ⟨?_, ?_⟩
  · exact (claim_C10_mutates_matches ℕ inferInstance true true
      [⟨0, 0, 1⟩, ⟨1, 1, 2⟩]).2.2 rfl rfl
  · exact (claim_C10_mutates_matches ℕ inferInstance true true
      [⟨0, 0, 1⟩, ⟨1, 1, 2⟩]).2.1 (by decide)

/-- C4: every match in a successful `correlate` result scores strictly
above `minimum_score`: the fourth-pass walk truncates the boiled list at
the first item at or below it, keeping only the items before that one. -/
theorem claim_C4_threshold (c : Correlator) (args : CorrelateArgs)
    (res : CorrelatorResult) (h : c.correlate args = Except.ok res) :
    ∀ m ∈ res.matchList, args.minimum_score < m.score := by
  have hres := correlate_ok_result h
  subst hres
  unfold resultOf
  cases hch : chosenOf c args with
  | none => simp
  | some o =>
    dsimp only
    intro m hm
    rcases List.mem_map.mp hm with ⟨x, hx, rfl⟩
    unfold chosenOf at hch
    have ho := pickLastMax_mem hch
    unfold outcomesOf at ho
    obtain ⟨mschan, _, hco⟩ := List.mem_filterMap.mp ho
    obtain ⟨_, _, _, hk, _⟩ := channelOutcome_some hco
    exact truncAtMin_scores args.minimum_score o.boiled x (hk ▸ hx)

unseal Rat.add Rat.mul Rat.sub Rat.inv in
/-- C4, witnessed on the C1 scenario: the single returned match scores 2
above the default minimum 0. -/
theorem claim_C4_witness :
    (0:ℚ) < (⟨"alpha", "beta", (2:ℚ)⟩ : CorrelatorMatch Value).score :=
  claim_C4_threshold c1Correlator {} ⟨[⟨"alpha", "beta", 2⟩], [], [], 0⟩ (by decide)
    ⟨"alpha", "beta", 2⟩ (List.mem_singleton.mpr rfl)

/-- C5: with validating datasets and a legal minimum score, `correlate`
fails with the invalid-argument error (the source's
`RuntimeError("correlate: can't use ranking_factor and ranking_bonus
together")`, the specification's InvalidArgument) precisely when both
`ranking_factor` and `ranking_bonus` are nonzero; with at most one of them
nonzero it returns a result.  The embedded call is a pure function of the
correlator, so the failing call leaves the datasets unchanged by
construction. -/
theorem claim_C5_invalid_argument (c : Correlator) (args : CorrelateArgs)
    (hv : (c.dataset_a.validate && c.dataset_b.validate) = true)
    (hm : 0 ≤ args.minimum_score) :
    (c.correlate args = Except.error PyError.invalidArgument ↔
      (args.ranking_factor ≠ 0 ∧ args.ranking_bonus ≠ 0)) ∧
    ((args.ranking_factor = 0 ∨ args.ranking_bonus = 0) →
      c.correlate args = Except.ok (resultOf c args)) := by
  have hg1 : (!(c.dataset_a.validate && c.dataset_b.validate)) = false := by
    rw [hv]; rfl
  have hg2 : (!(decide ((0:ℚ) ≤ args.minimum_score))) = false := by
    rw [decide_eq_true hm]; rfl
  unfold Correlator.correlate Correlator.correlateDetailed
  rw [hg1, hg2]
  simp only [Bool.false_eq_true, if_false]
  by_cases h : args.ranking_factor ≠ 0 ∧ args.ranking_bonus ≠ 0
  · have hg3 : (decide (args.ranking_factor ≠ 0) &&
        decide (args.ranking_bonus ≠ 0)) = true := by
      rw [decide_eq_true h.1, decide_eq_true h.2]; rfl
    rw [if_pos hg3]
    constructor
    · exact iff_of_true (by rfl) h
    · intro h2
      rcases h2 with h2 | h2
      · exact absurd h2 h.1
      · exact absurd h2 h.2
  · have hg3 : (decide (args.ranking_factor ≠ 0) &&
        decide (args.ranking_bonus ≠ 0)) = false := by
      rcases not_and_or.mp h with h2 | h2
      · rw [decide_eq_false h2]
        rfl
      · rw [decide_eq_false h2]
        simp
    rw [if_neg (by rw [hg3]; exact Bool.false_ne_true)]
    constructor
    · exact iff_of_false (by simp [Except.map]) h
    · intro _
      rfl

/-- C5, witnessed on the C1 scenario with both knobs set: the call fails
with the invalid-argument error; with only a bonus set it succeeds. -/
theorem claim_C5_witness :
    c1Correlator.correlate
      { ranking_factor := 1/2, ranking_bonus := 1/10 } =
      Except.error PyError.invalidArgument ∧
    ∃ r, c1Correlator.correlate { ranking_bonus := 1/10 } = Except.ok r := by
  constructor
  · exact (claim_C5_invalid_argument c1Correlator
      { ranking_factor := 1/2, ranking_bonus := 1/10 }
      (by decide) (by decide)).1.mpr (by constructor <;> norm_num)
  · exact ⟨_, (claim_C5_invalid_argument c1Correlator { ranking_bonus := 1/10 }
      (by decide) (by decide)).2 (Or.inl rfl)⟩

/-- C2: uniqueness of matched values.  At the boiler level, with
`reuse_a = false` the results of `matchBoiler` carry pairwise distinct
`value_a` fields (likewise for `value_b` with `reuse_b = false`); at the
`correlate` level, the returned matches carry pairwise distinct `value_a`
values when `reuse_a = false` and pairwise distinct `value_b` values when
`reuse_b = false`. -/
theorem claim_C2_uniqueness :
    (∀ (γ : Type u) (_ : DecidableEq γ) (rb : Bool) (ms : List (CorrelatorMatch γ)),
        (matchBoiler false rb ms).1.Pairwise (fun x y => x.value_a ≠ y.value_a)) ∧
    (∀ (γ : Type u) (_ : DecidableEq γ) (ra : Bool) (ms : List (CorrelatorMatch γ)),
        (matchBoiler ra false ms).1.Pairwise (fun x y => x.value_b ≠ y.value_b)) ∧
    ∀ (c : Correlator) (args : CorrelateArgs) (res : CorrelatorResult),
      c.correlate args = Except.ok res →
      (args.reuse_a = false →
        res.matchList.Pairwise (fun x y => x.value_a ≠ y.value_a)) ∧
      (args.reuse_b = false →
        res.matchList.Pairwise (fun x y => x.value_b ≠ y.value_b)) := by
  refine ⟨fun γ _ rb ms => matchBoiler_uniq_a rb ms,
    fun γ _ ra ms => matchBoiler_uniq_b ra ms, ?_⟩
  intro c args res h
  have hres := correlate_ok_result h
  obtain ⟨hva, hvb, _⟩ := correlate_ok_guards h
  subst hres
  cases hch : chosenOf c args with
  | none =>
    have hml : (resultOf c args).matchList = [] := by
      unfold resultOf
      rw [hch]
    rw [hml]
    exact ⟨fun _ => List.Pairwise.nil, fun _ => List.Pairwise.nil⟩
  | some o =>
    have hml : (resultOf c args).matchList = o.kept.map (fun m =>
        (⟨c.dataset_a.values.getD m.value_a "", c.dataset_b.values.getD m.value_b "",
          m.score⟩ : CorrelatorMatch Value)) := by
      unfold resultOf
      rw [hch]
    have hbounds := chosen_kept_bounds hch hva hvb
    have hch2 : pickLastMax (outcomesOf c args) = some o := hch
    obtain ⟨mschan, hmschan, hco⟩ := List.mem_filterMap.mp (pickLastMax_mem hch2)
    obtain ⟨hb2, _, _, hk2, _⟩ := channelOutcome_some hco
    have hsub : o.kept.Sublist o.boiled := hk2 ▸ truncAtMin_sublist _ _
    have hkb : ∀ m ∈ o.kept, m.value_a < c.dataset_a.values.length ∧
        m.value_b < c.dataset_b.values.length :=
      fun m hm => hbounds m (hsub.subset hm)
    rw [hml]
    constructor
    · intro hra
      have hpw : o.boiled.Pairwise (fun x y => x.value_a ≠ y.value_a) := by
        rw [hb2, hra]
        exact matchBoiler_uniq_a _ _
      have hpwk := hpw.sublist hsub
      rw [List.pairwise_map]
      refine List.Pairwise.imp_of_mem ?_ hpwk
      intro x y hx hy hne heq
      exact getD_inj (validate_facts hva).1 (hkb x hx).1 (hkb y hy).1 hne "" heq
    · intro hrb
      have hpw : o.boiled.Pairwise (fun x y => x.value_b ≠ y.value_b) := by
        rw [hb2, hrb]
        exact matchBoiler_uniq_b _ _
      have hpwk := hpw.sublist hsub
      rw [List.pairwise_map]
      refine List.Pairwise.imp_of_mem ?_ hpwk
      intro x y hx hy hne heq
      exact getD_inj (validate_facts hvb).1 (hkb x hx).2 (hkb y hy).2 hne "" heq

unseal Rat.add Rat.mul Rat.sub Rat.inv in
/-- C2, witnessed on the C1 scenario: the single returned match trivially
has pairwise-distinct values on both sides, obtained by instantiating the
uniqueness theorem at that concrete run. -/
theorem claim_C2_witness :
    ([(⟨"alpha", "beta", (2:ℚ)⟩ : CorrelatorMatch Value)]).Pairwise
        (fun x y => x.value_a ≠ y.value_a) ∧
    ([(⟨"alpha", "beta", (2:ℚ)⟩ : CorrelatorMatch Value)]).Pairwise
        (fun x y => x.value_b ≠ y.value_b) := by
  have h := (claim_C2_uniqueness.{0}.2.2 c1Correlator {}
    ⟨[⟨"alpha", "beta", 2⟩], [], [], 0⟩ (by decide))
  exact ⟨h.1 rfl, h.2 rfl⟩

unseal Rat.add Rat.mul Rat.sub Rat.inv in
/-- C1, counterexample to the claimed score: the single-exact-match run
does return one match pairing alpha with beta and empty unmatched lists,
but its score is 2, not approximately 1 (it exceeds 1 by more than any
reasonable tolerance such as one half). -/
theorem claim_C1_counterexample :
    c1Correlator.correlate {} =
      Except.ok ⟨[⟨"alpha", "beta", 2⟩], [], [], 0⟩ ∧
    ¬((2:ℚ) - 1 ≤ 1/2) := by
  exact ⟨by decide, by decide⟩

unseal Rat.add Rat.mul Rat.sub Rat.inv in
/-- C1 (amended): with A = set("x", "alpha") and B = set("x", "beta") and
default parameters, `correlate` returns exactly one match pairing alpha
with beta, with score exactly 2 — the exact-key score 1 plus the
score-ratio bonus 1·2/(1+1) = 1 — and both unmatched lists empty. -/
theorem claim_C1_single_exact_match :
    c1Correlator.correlate {} =
      Except.ok ⟨[⟨"alpha", "beta", 2⟩], [], [], 0⟩ ∧
    (2:ℚ) = 1 + 1 * 2 / ((1:ℚ) + 1) := by
  exact ⟨by decide, by decide⟩

unseal Rat.add Rat.mul Rat.sub Rat.inv in
/-- C3, counterexample: with minimum_score 7/4, the run keeps only the
(a1, b1) match, yet value a2 of dataset A appears neither among the
matched `value_a`s nor in `unmatched_a` — the boiler marked it seen before
the truncation dropped its match. -/
theorem claim_C3_counterexample :
    c3Correlator.correlate { minimum_score := 7/4 } =
      Except.ok ⟨[⟨"a1", "b1", 2⟩], [], [], 7/4⟩ ∧
    "a2" ∈ c3Correlator.dataset_a.values ∧
    ¬("a2" ∈ ([⟨"a1", "b1", (2:ℚ)⟩] : List (CorrelatorMatch Value)).map
        (fun m => m.value_a)) ∧
    ¬("a2" ∈ ([] : List Value)) := by
  refine ⟨by decide, by decide, by decide, by decide⟩

/-- C3 (amended): whenever the chosen channel's boiled matches all score
strictly above `minimum_score` — i.e. the final truncation drops nothing —
the returned matches and unmatched lists partition each dataset's values:
a value belongs to the dataset exactly when it is matched or unmatched.
The unamended claim fails when truncation intervenes, because the seen
sets are fixed before the truncation. -/
theorem claim_C3_partition (c : Correlator) (args : CorrelateArgs)
    (res : CorrelatorResult) (h : c.correlate args = Except.ok res)
    (hnt : ∀ o, chosenOf c args = some o →
      ∀ m ∈ o.boiled, args.minimum_score < m.score) :
    (∀ v, (v ∈ res.matchList.map (fun m => m.value_a) ∨ v ∈ res.unmatched_a) ↔
      v ∈ c.dataset_a.values) ∧
    (∀ v, (v ∈ res.matchList.map (fun m => m.value_b) ∨ v ∈ res.unmatched_b) ↔
      v ∈ c.dataset_b.values) := by
  have hres := correlate_ok_result h
  obtain ⟨hva, hvb, _⟩ := correlate_ok_guards h
  subst hres
  cases hch : chosenOf c args with
  | none =>
    have hr : resultOf c args =
        ⟨[], c.dataset_a.values, c.dataset_b.values, args.minimum_score⟩ := by
      unfold resultOf
      rw [hch]
    rw [hr]
    constructor <;> intro v <;> simp
  | some o =>
    have hr : resultOf c args = ⟨o.kept.map (fun m =>
        (⟨c.dataset_a.values.getD m.value_a "", c.dataset_b.values.getD m.value_b "",
          m.score⟩ : CorrelatorMatch Value)),
       unmatchedOf c.dataset_a.values o.seen_a,
       unmatchedOf c.dataset_b.values o.seen_b, args.minimum_score⟩ := by
      unfold resultOf
      rw [hch]
    have hbounds := chosen_kept_bounds hch hva hvb
    have hch2 : pickLastMax (outcomesOf c args) = some o := hch
    obtain ⟨mschan, hmschan, hco⟩ := List.mem_filterMap.mp (pickLastMax_mem hch2)
    obtain ⟨hb2, hsa2, hsb2, hk2, _⟩ := channelOutcome_some hco
    have hkb : o.kept = o.boiled := by
      rw [hk2]
      exact truncAtMin_all _ _ (hnt o hch)
    rw [hr]
    constructor
    · intro v
      constructor
      · intro hv
        rcases hv with hv | hv
        · rcases List.mem_map.mp hv with ⟨m0, hm0, rfl⟩
          rcases List.mem_map.mp hm0 with ⟨x, hx, rfl⟩
          rw [hkb] at hx
          exact getD_mem "" (hbounds x hx).1
        · exact unmatchedOf_subset v hv
      · intro hv
        rcases List.mem_iff_getElem.mp hv with ⟨i, hi, hgi⟩
        have hgd : c.dataset_a.values.getD i "" = v := by
          rw [List.getD_eq_getElem _ "" hi]
          exact hgi
        by_cases hseen : i ∈ o.seen_a
        · left
          rw [hsa2] at hseen
          obtain ⟨x, hx, hxa⟩ :=
            ((matchBoiler_seen args.reuse_a args.reuse_b _).1 i).mp hseen
          refine List.mem_map.mpr ⟨⟨c.dataset_a.values.getD x.value_a "",
            c.dataset_b.values.getD x.value_b "", x.score⟩,
            List.mem_map.mpr ⟨x, by rw [hkb, hb2]; exact hx, rfl⟩, ?_⟩
          show c.dataset_a.values.getD x.value_a "" = v
          rw [hxa]
          exact hgd
        · right
          rw [← hgd]
          exact unmatchedOf_mem hi hseen
    · intro v
      constructor
      · intro hv
        rcases hv with hv | hv
        · rcases List.mem_map.mp hv with ⟨m0, hm0, rfl⟩
          rcases List.mem_map.mp hm0 with ⟨x, hx, rfl⟩
          rw [hkb] at hx
          exact getD_mem "" (hbounds x hx).2
        · exact unmatchedOf_subset v hv
      · intro hv
        rcases List.mem_iff_getElem.mp hv with ⟨i, hi, hgi⟩
        have hgd : c.dataset_b.values.getD i "" = v := by
          rw [List.getD_eq_getElem _ "" hi]
          exact hgi
        by_cases hseen : i ∈ o.seen_b
        · left
          rw [hsb2] at hseen
          obtain ⟨x, hx, hxb⟩ :=
            ((matchBoiler_seen args.reuse_a args.reuse_b _).2 i).mp hseen
          refine List.mem_map.mpr ⟨⟨c.dataset_a.values.getD x.value_a "",
            c.dataset_b.values.getD x.value_b "", x.score⟩,
            List.mem_map.mpr ⟨x, by rw [hkb, hb2]; exact hx, rfl⟩, ?_⟩
          show c.dataset_b.values.getD x.value_b "" = v
          rw [hxb]
          exact hgd
        · right
          rw [← hgd]
          exact unmatchedOf_mem hi hseen

unseal Rat.add Rat.mul Rat.sub Rat.inv in
/-- C3, witnessed on the C1 scenario with the default minimum score 0:
nothing is truncated there, and the partition property holds for the
returned result. -/
theorem claim_C3_witness :
    (∀ v, (v ∈ ([(⟨"alpha", "beta", (2:ℚ)⟩ : CorrelatorMatch Value)]).map
        (fun m => m.value_a) ∨ v ∈ ([] : List Value)) ↔
      v ∈ c1Correlator.dataset_a.values) ∧
    (∀ v, (v ∈ ([(⟨"alpha", "beta", (2:ℚ)⟩ : CorrelatorMatch Value)]).map
        (fun m => m.value_b) ∨ v ∈ ([] : List Value)) ↔
      v ∈ c1Correlator.dataset_b.values) :=
  claim_C3_partition c1Correlator {} ⟨[⟨"alpha", "beta", 2⟩], [], [], 0⟩
    (by decide)
    (by
      intro o ho m hm
      have hc : chosenOf c1Correlator {} =
          some ⟨[⟨0, 0, 2⟩], [0], [0], 2, [⟨0, 0, 2⟩]⟩ := by decide
      rw [hc] at ho
      cases Option.some.inj ho
      have hm2 : m ∈ [(⟨0, 0, 2⟩ : CorrelatorMatch ℕ)] := hm
      rcases List.mem_singleton.mp hm2 with rfl
      decide)

/-- C7, counterexample: the character '0' is in the claimed alphabet, yet
tokenizing "0" yields the single empty token (its leading zeroes are all
stripped), and re-tokenizing that token list yields no token at all — the
tokenizer is not idempotent on pure-zero tokens. -/
theorem claim_C7_counterexample :
    allowedChar '0' = true ∧
    strToKeys ['0'] = [([] : List Char)] ∧
    (strToKeys ['0']).flatMap strToKeys ≠ strToKeys ['0'] := by
  refine ⟨by decide, by decide, by decide⟩

/-- C7 (amended): on a string of ASCII letters, digits, whitespace and the
configured punctuation, whenever every produced token is nonempty (i.e. no
maximal non-space run consists of zeroes only), re-tokenizing the tokens
of `str_to_keys` reproduces them exactly.  The unamended claim fails on
all-zero tokens, which strip to the empty string. -/
theorem claim_C7_idempotent (s : List Char)
    (_hall : ∀ c ∈ s, allowedChar c = true)
    (hne : ∀ t ∈ strToKeys s, t ≠ []) :
    (strToKeys s).flatMap strToKeys = strToKeys s := by
  apply flatMap_fixed
  intro t ht
  have htm := ht
  unfold strToKeys at ht
  rcases List.mem_map.mp ht with ⟨w, hw, rfl⟩
  have hq := words_chars
    (fun c => !(isSpaceChar c) && ((translatePunct c == c) && (asciiLower c == c)))
    _ (mapped_chars_ok s) w hw
  have hnet : stripLeadingZeroes w ≠ [] := hne _ htm
  apply strToKeys_fixed
  · exact hnet
  · intro c hm
    have h3 := hq c (stripLeadingZeroes_subset w c hm)
    obtain ⟨hns, h4⟩ := Bool.and_eq_true_iff.mp h3
    obtain ⟨htp, hal⟩ := Bool.and_eq_true_iff.mp h4
    exact ⟨by simpa using hns, eq_of_beq htp, eq_of_beq hal⟩
  · exact stripLeadingZeroes_idem w hnet

/-- C7, witnessed on the string "ab 012": its tokens are "ab" and "12"
(the leading zero stripped), both nonempty, and re-tokenizing them gives
the same list. -/
theorem claim_C7_witness :
    (strToKeys ['a', 'b', ' ', '0', '1', '2']).flatMap strToKeys =
      strToKeys ['a', 'b', ' ', '0', '1', '2'] :=
  claim_C7_idempotent ['a', 'b', ' ', '0', '1', '2'] (by decide) (by decide)

unseal Rat.add Rat.mul Rat.sub Rat.inv in
/-- C8, counterexample: on the six-cycle datasets every candidate pair
scores 3/2, and the tie-breaking experiments of the match boiler are not
swap-symmetric — the original run matches (a2, b1) while the swapped run,
mapped back, matches a2 with b0 instead: the two runs produce different
sets of matched pairs. -/
theorem claim_C8_counterexample :
    (Correlator.mk c8DatasetA c8DatasetB).correlate {} = Except.ok
      ⟨[⟨"a2", "b1", 3/2⟩, ⟨"a1", "b0", 3/2⟩, ⟨"a0", "b2", 3/2⟩], [], [], 0⟩ ∧
    (Correlator.mk c8DatasetB c8DatasetA).correlate {} = Except.ok
      ⟨[⟨"b2", "a1", 3/2⟩, ⟨"b1", "a0", 3/2⟩, ⟨"b0", "a2", 3/2⟩], [], [], 0⟩ ∧
    ¬((⟨"a2", "b1", (3:ℚ)/2⟩ : CorrelatorMatch Value) ∈
        ([⟨"b2", "a1", 3/2⟩, ⟨"b1", "a0", 3/2⟩, ⟨"b0", "a2", 3/2⟩] :
          List (CorrelatorMatch Value)).map cmSwap) := by
  refine ⟨by decide, by decide, by decide⟩

/-- C8 (amended): swapping the datasets and the reuse flags mirrors the
entire run — matches swapped, unmatched lists exchanged, identical scores
and errors — provided the per-value key tables are duplicate-free (always
true for datasets built through the API) and no fourth-pass channel holds
two candidate matches with equal scores.  Without the distinct-score
proviso the claim is false: the tie-breaking experiments of the match
boiler are not symmetric, as the six-cycle counterexample shows. -/
theorem claim_C8_swap (A B : Dataset) (args : CorrelateArgs)
    (hkA : A.keymapsNodup = true) (hkB : B.keymapsNodup = true)
    (hdist : ∀ ch ∈ channelsOf (Correlator.mk A B) args,
      ch.Pairwise (fun x y => x.score ≠ y.score)) :
    (Correlator.mk B A).correlate (swapReuse args) =
      ((Correlator.mk A B).correlate args).map resultSwap := by
  unfold Correlator.correlate Correlator.correlateDetailed
  dsimp only
  have hv : (B.validate && A.validate) = (A.validate && B.validate) := Bool.and_comm _ _
  rw [hv]
  have hm : (swapReuse args).minimum_score = args.minimum_score := rfl
  have hf : (swapReuse args).ranking_factor = args.ranking_factor := rfl
  have hb : (swapReuse args).ranking_bonus = args.ranking_bonus := rfl
  rw [hm, hf, hb]
  by_cases h1 : (!(A.validate && B.validate)) = true
  · rw [if_pos h1, if_pos h1]
    rfl
  · rw [if_neg h1, if_neg h1]
    by_cases h2 : (!(decide ((0:ℚ) ≤ args.minimum_score))) = true
    · rw [if_pos h2, if_pos h2]
      rfl
    · rw [if_neg h2, if_neg h2]
      by_cases h3 : (decide (args.ranking_factor ≠ 0) &&
          decide (args.ranking_bonus ≠ 0)) = true
      · rw [if_pos h3, if_pos h3]
        rfl
      · rw [if_neg h3, if_neg h3]
        dsimp only [Except.map]
        rw [resultOf_swap A B args hkA hkB hdist]

unseal Rat.add Rat.mul Rat.sub Rat.inv in
/-- C8, witnessed on the single-exact-match scenario: its one channel has
the single score 2, trivially duplicate-free, and the swapped run is the
exact mirror of the original. -/
theorem claim_C8_witness :
    (Correlator.mk (emptyDataset.set "x" "beta") (emptyDataset.set "x" "alpha")).correlate
        (swapReuse {}) =
      ((Correlator.mk (emptyDataset.set "x" "alpha")
        (emptyDataset.set "x" "beta")).correlate {}).map resultSwap :=
  claim_C8_swap (emptyDataset.set "x" "alpha") (emptyDataset.set "x" "beta") {}
    (by decide) (by decide) (by decide)

end Correlate
